import Mathlib

/-!
Verification of the quota-aware multi-key request scheduler of the Pars
repository (files `youtube_scraper.py` and `api_validator.py`).

The Python code is shallowly embedded: each Python method used by a claim is
translated into an executable Lean definition over explicit state.  Machine
floats (`time.time()` values, quota ratios, similarity scores) are modelled
by `ℚ`; Python dicts by association lists (first match wins, insertion order
preserved); `time.sleep` by an explicit clock that advances by the slept
amount; `random.uniform(0, 1)` by an oracle stream of rationals.
-/

/-- `dict.get(key, default)` on an association list (Python dicts have unique
keys; lookup returns the value of the first matching entry). -/
def aget {α : Type} (d : α) : List (String × α) → String → α
  | [], _ => d
  | (k', v) :: t, k => if k' = k then v else aget d t k

/-- `dict[key] = value` on an association list: replace the first entry with
this key, or append a new entry at the end (Python dicts keep insertion
order). -/
def aset {α : Type} : List (String × α) → String → α → List (String × α)
  | [], k, v => [(k, v)]
  | (k', v') :: t, k, v => if k' = k then (k, v) :: t else (k', v') :: aset t k v

/-- `list.remove(x)`: drop the first occurrence of `x`. -/
def lerase : List String → String → List String
  | [], _ => []
  | x :: xs, k => if x = k then xs else x :: lerase xs k

theorem aget_aset_self {α : Type} (d : α) (l : List (String × α)) (k : String) (v : α) :
    aget d (aset l k v) k = v := by
  induction l with
  | nil => simp [aset, aget]
  | cons h t ih =>
    obtain ⟨k', v'⟩ := h
    by_cases hk : k' = k <;> simp [aset, aget, hk, ih]

theorem aget_aset_ne {α : Type} (d : α) (l : List (String × α)) (k k' : String) (v : α)
    (h : k ≠ k') : aget d (aset l k v) k' = aget d l k' := by
  induction l with
  | nil => simp [aset, aget, h]
  | cons hd t ih =>
    obtain ⟨k₀, v₀⟩ := hd
    by_cases hk : k₀ = k
    · subst hk
      simp [aset, aget, h]
    · simp [aset, hk, aget, ih]

theorem mem_lerase_of_mem {l : List String} {x k : String}
    (hx : x ∈ lerase l k) : x ∈ l := by
  induction l with
  | nil => simp [lerase] at hx
  | cons h t ih =>
    by_cases hk : h = k
    · subst hk
      simp [lerase] at hx
      exact List.mem_cons_of_mem _ hx
    · simp [lerase, hk] at hx
      rcases hx with hx | hx
      · exact hx ▸ List.mem_cons_self _ _
      · exact List.mem_cons_of_mem _ (ih hx)

/-! ## Bounded Cache (`LRUCache` in `youtube_scraper.py`)

The `OrderedDict` is modelled as a list of key/value pairs, oldest first;
`move_to_end` moves an entry to the back, `popitem(last=False)` removes the
front entry.  `popitem` on an empty dict raises `KeyError`, so `put` returns
an `Option`: `none` models that exception (reachable only with
`max_size = 0`). -/

/-- First value stored under `k`, if any (`key in self.cache` / `self.cache[key]`). -/
def odLookup {K V : Type} [DecidableEq K] : List (K × V) → K → Option V
  | [], _ => none
  | (k', v) :: t, k => if k' = k then some v else odLookup t k

/-- Remove the first entry whose key is `k`. -/
def odRemove {K V : Type} [DecidableEq K] : List (K × V) → K → List (K × V)
  | [], _ => []
  | (k', v) :: t, k => if k' = k then t else (k', v) :: odRemove t k

/-- `OrderedDict.move_to_end(key)`: reposition the entry at the back, keeping
its value.  (The Python method raises on a missing key; all call sites guard
with a membership test, so the missing case is modelled as the identity.) -/
def odMoveToEnd {K V : Type} [DecidableEq K] (c : List (K × V)) (k : K) : List (K × V) :=
  match odLookup c k with
  | none => c
  | some v => odRemove c k ++ [(k, v)]

/-- `self.cache[key] = value`: overwrite in place, or append a fresh entry. -/
def odSet {K V : Type} [DecidableEq K] : List (K × V) → K → V → List (K × V)
  | [], k, v => [(k, v)]
  | (k', v') :: t, k, v => if k' = k then (k, v) :: t else (k', v') :: odSet t k v

structure LRUCache (K V : Type) where
  cache : List (K × V)
  max_size : ℕ

/-- `LRUCache.__init__`. -/
def LRUCache.empty (K V : Type) (max_size : ℕ) : LRUCache K V :=
  ⟨[], max_size⟩

/-- `LRUCache.get`: on a hit, move the entry to the most-recently-used end and
return its value; on a miss return the default (`none`). -/
def LRUCache.get {K V : Type} [DecidableEq K] (c : LRUCache K V) (k : K) :
    Option V × LRUCache K V :=
  match odLookup c.cache k with
  | some _ =>
    let c' := odMoveToEnd c.cache k
    (odLookup c' k, { c with cache := c' })
  | none => (none, c)

/-- `LRUCache.put`: refresh an existing key, otherwise evict the
least-recently-used entry when at capacity, then store the pair.  `none`
models the `KeyError` from `popitem` on an empty dict. -/
def LRUCache.put {K V : Type} [DecidableEq K] (c : LRUCache K V) (k : K) (v : V) :
    Option (LRUCache K V) :=
  match odLookup c.cache k with
  | some _ =>
    some { c with cache := odSet (odMoveToEnd c.cache k) k v }
  | none =>
    if c.max_size ≤ c.cache.length then
      match c.cache with
      | [] => none
      | _ :: tail => some { c with cache := odSet tail k v }
    else
      some { c with cache := odSet c.cache k v }

/-- One `put`/`get` request against a cache. -/
inductive CacheOp (K V : Type) where
  | putOp (k : K) (v : V)
  | getOp (k : K)

/-- Run a sequence of operations from a starting cache; a raised `KeyError`
aborts the run. -/
def runOps {K V : Type} [DecidableEq K] :
    List (CacheOp K V) → LRUCache K V → Option (LRUCache K V)
  | [], c => some c
  | op :: ops, c =>
    match op with
    | .putOp k v =>
      match c.put k v with
      | none => none
      | some c' => runOps ops c'
    | .getOp k => runOps ops (c.get k).2

/-- Structural invariant: keys are distinct (an `OrderedDict` property) and the
size respects the capacity. -/
def CacheInv {K V : Type} (c : LRUCache K V) : Prop :=
  (c.cache.map Prod.fst).Nodup ∧ c.cache.length ≤ c.max_size

theorem odLookup_eq_none {K V : Type} [DecidableEq K] {c : List (K × V)} {k : K}
    (h : odLookup c k = none) : ∀ v, (k, v) ∉ c := by
  induction c with
  | nil => simp
  | cons hd t ih =>
    obtain ⟨k', v'⟩ := hd
    intro v hv
    by_cases hk : k' = k
    · simp [odLookup, hk] at h
    · simp [odLookup, hk] at h
      rcases List.mem_cons.1 hv with hv | hv
      · exact hk (congrArg Prod.fst hv).symm
      · exact ih h v hv

theorem odRemove_length {K V : Type} [DecidableEq K] {c : List (K × V)} {k : K} {v : V}
    (h : odLookup c k = some v) : (odRemove c k).length + 1 = c.length := by
  induction c with
  | nil => simp [odLookup] at h
  | cons hd t ih =>
    obtain ⟨k', v'⟩ := hd
    by_cases hk : k' = k
    · simp [odRemove, hk]
    · simp [odLookup, hk] at h
      simp [odRemove, hk, ih h]

theorem odSet_length_of_mem {K V : Type} [DecidableEq K] {c : List (K × V)} {k : K} {w : V}
    (h : odLookup c k = some w) (v : V) : (odSet c k v).length = c.length := by
  induction c with
  | nil => simp [odLookup] at h
  | cons hd t ih =>
    obtain ⟨k', v'⟩ := hd
    by_cases hk : k' = k
    · simp [odSet, hk]
    · simp [odLookup, hk] at h
      simp [odSet, hk, ih h]

theorem odSet_length_of_none {K V : Type} [DecidableEq K] {c : List (K × V)} {k : K}
    (h : odLookup c k = none) (v : V) : (odSet c k v).length = c.length + 1 := by
  induction c with
  | nil => simp [odSet]
  | cons hd t ih =>
    obtain ⟨k', v'⟩ := hd
    by_cases hk : k' = k
    · simp [odLookup, hk] at h
    · simp [odLookup, hk] at h
      simp [odSet, hk, ih h]

theorem odLookup_odSet_self {K V : Type} [DecidableEq K] (c : List (K × V)) (k : K) (v : V) :
    odLookup (odSet c k v) k = some v := by
  induction c with
  | nil => simp [odSet, odLookup]
  | cons hd t ih =>
    obtain ⟨k', v'⟩ := hd
    by_cases hk : k' = k <;> simp [odSet, hk, odLookup, ih]

theorem odRemove_sublist {K V : Type} [DecidableEq K] (c : List (K × V)) (k : K) :
    (odRemove c k).Sublist c := by
  induction c with
  | nil => simp [odRemove]
  | cons hd t ih =>
    obtain ⟨k', v'⟩ := hd
    by_cases hk : k' = k
    · simp [odRemove, hk]
    · simpa [odRemove, hk] using ih.cons₂ (k', v')

theorem not_mem_fst_odRemove {K V : Type} [DecidableEq K] {c : List (K × V)} {k : K}
    (h : (c.map Prod.fst).Nodup) : k ∉ (odRemove c k).map Prod.fst := by
  induction c with
  | nil => simp [odRemove]
  | cons hd t ih =>
    obtain ⟨k', v'⟩ := hd
    simp only [List.map_cons, List.nodup_cons] at h
    by_cases hk : k' = k
    · subst hk
      simpa [odRemove] using h.1
    · simp only [odRemove, hk, if_false, List.map_cons, List.mem_cons]
      push_neg
      exact ⟨fun he => hk he.symm, ih h.2⟩

theorem odLookup_append_right {K V : Type} [DecidableEq K] {l₁ : List (K × V)}
    (l₂ : List (K × V)) {k : K} (h : k ∉ l₁.map Prod.fst) :
    odLookup (l₁ ++ l₂) k = odLookup l₂ k := by
  induction l₁ with
  | nil => rfl
  | cons hd t ih =>
    obtain ⟨k', v'⟩ := hd
    simp only [List.map_cons, List.mem_cons] at h
    push_neg at h
    have hne : k' ≠ k := fun he => h.1 he.symm
    simp [odLookup, hne, ih h.2]

theorem odLookup_odMoveToEnd {K V : Type} [DecidableEq K] {c : List (K × V)} {k : K}
    (h : (c.map Prod.fst).Nodup) : odLookup (odMoveToEnd c k) k = odLookup c k := by
  cases hl : odLookup c k with
  | none => simp [odMoveToEnd, hl]
  | some v =>
    simp only [odMoveToEnd, hl]
    rw [odLookup_append_right _ (not_mem_fst_odRemove h)]
    simp [odLookup]

theorem fst_odSet_of_some {K V : Type} [DecidableEq K] {c : List (K × V)} {k : K} {w : V}
    (h : odLookup c k = some w) (v : V) :
    (odSet c k v).map Prod.fst = c.map Prod.fst := by
  induction c with
  | nil => simp [odLookup] at h
  | cons hd t ih =>
    obtain ⟨k', v'⟩ := hd
    by_cases hk : k' = k
    · subst hk; simp [odSet]
    · simp only [odLookup, hk, if_false] at h
      simp [odSet, hk, ih h]

theorem fst_odSet_of_none {K V : Type} [DecidableEq K] {c : List (K × V)} {k : K}
    (h : odLookup c k = none) (v : V) :
    (odSet c k v).map Prod.fst = c.map Prod.fst ++ [k] := by
  induction c with
  | nil => simp [odSet]
  | cons hd t ih =>
    obtain ⟨k', v'⟩ := hd
    by_cases hk : k' = k
    · simp [odLookup, hk] at h
    · simp only [odLookup, hk, if_false] at h
      simp [odSet, hk, ih h]

theorem not_mem_fst_of_none {K V : Type} [DecidableEq K] {c : List (K × V)} {k : K}
    (h : odLookup c k = none) : k ∉ c.map Prod.fst := by
  intro hmem
  rcases List.mem_map.1 hmem with ⟨⟨k', v⟩, hp, hfst⟩
  have : (k, v) ∈ c := by
    have : k' = k := hfst
    simpa [this] using hp
  exact odLookup_eq_none h v this

theorem nodup_fst_odSet {K V : Type} [DecidableEq K] {c : List (K × V)} {k : K}
    (h : (c.map Prod.fst).Nodup) (v : V) :
    ((odSet c k v).map Prod.fst).Nodup := by
  cases hl : odLookup c k with
  | some w => rw [fst_odSet_of_some hl]; exact h
  | none =>
    rw [fst_odSet_of_none hl]
    exact List.Nodup.append h (List.nodup_singleton k)
      (List.disjoint_singleton.2 (not_mem_fst_of_none hl))

theorem fst_odMoveToEnd_perm {K V : Type} [DecidableEq K] {c : List (K × V)} {k : K} {w : V}
    (hl : odLookup c k = some w) :
    ((odMoveToEnd c k).map Prod.fst).Perm (c.map Prod.fst) := by
  simp only [odMoveToEnd, hl]
  induction c with
  | nil => simp [odLookup] at hl
  | cons hd t ih =>
    obtain ⟨k', v'⟩ := hd
    by_cases hk : k' = k
    · subst hk
      simp only [odRemove, if_pos rfl, List.map_append, List.map_cons, List.map_nil]
      exact List.perm_append_singleton _ _
    · have hl' : odLookup t k = some w := by simpa [odLookup, hk] using hl
      simp only [odRemove, hk, if_false, List.map_cons, List.cons_append]
      exact (ih hl').cons k'

theorem nodup_fst_odMoveToEnd {K V : Type} [DecidableEq K] {c : List (K × V)} {k : K}
    (h : (c.map Prod.fst).Nodup) : ((odMoveToEnd c k).map Prod.fst).Nodup := by
  cases hl : odLookup c k with
  | none => simp [odMoveToEnd, hl, h]
  | some w => exact ((fst_odMoveToEnd_perm hl).nodup_iff).2 h

theorem odMoveToEnd_length {K V : Type} [DecidableEq K] {c : List (K × V)} {k : K} {w : V}
    (hl : odLookup c k = some w) : (odMoveToEnd c k).length = c.length := by
  simp only [odMoveToEnd, hl]
  have := odRemove_length hl
  simp [List.length_append]
  omega

theorem odLookup_tail_none {K V : Type} [DecidableEq K] {hd : K × V} {t : List (K × V)} {k : K}
    (h : odLookup (hd :: t) k = none) : odLookup t k = none := by
  obtain ⟨k', v'⟩ := hd
  by_cases hk : k' = k <;> simp [odLookup, hk] at h ⊢ <;> try exact h

theorem odSet_append_singleton {K V : Type} [DecidableEq K] {l₁ : List (K × V)} {k : K}
    (h : k ∉ l₁.map Prod.fst) (w v : V) :
    odSet (l₁ ++ [(k, w)]) k v = l₁ ++ [(k, v)] := by
  induction l₁ with
  | nil => simp [odSet]
  | cons hd t ih =>
    obtain ⟨k', v'⟩ := hd
    simp only [List.map_cons, List.mem_cons] at h
    push_neg at h
    have hne : k' ≠ k := fun he => h.1 he.symm
    simp [odSet, hne, ih h.2]

theorem LRUCache.put_inv {K V : Type} [DecidableEq K] {c c' : LRUCache K V} {k : K} {v : V}
    (hinv : CacheInv c) (h : c.put k v = some c') :
    CacheInv c' ∧ c'.max_size = c.max_size := by
  unfold LRUCache.put at h
  cases hl : odLookup c.cache k with
  | some w =>
    rw [hl] at h
    injection h with h
    subst h
    have hmv : odLookup (odMoveToEnd c.cache k) k = some w :=
      (odLookup_odMoveToEnd hinv.1).trans hl
    refine ⟨⟨?_, ?_⟩, rfl⟩
    · exact nodup_fst_odSet (nodup_fst_odMoveToEnd hinv.1) v
    · simp only [odSet_length_of_mem hmv, odMoveToEnd_length hl]
      exact hinv.2
  | none =>
    rw [hl] at h
    by_cases hfull : c.max_size ≤ c.cache.length
    · rw [if_pos hfull] at h
      cases hc : c.cache with
      | nil => rw [hc] at h; cases h
      | cons hd tail =>
        rw [hc] at h
        injection h with h
        subst h
        have htail : odLookup tail k = none := odLookup_tail_none (hc ▸ hl)
        have hnd : ((hd :: tail).map Prod.fst).Nodup := hc ▸ hinv.1
        refine ⟨⟨?_, ?_⟩, rfl⟩
        · exact nodup_fst_odSet (List.nodup_cons.1 (by simpa using hnd)).2 v
        · have h1 : tail.length + 1 = c.cache.length := by rw [hc]; simp
          have h2 := hinv.2
          simp only [odSet_length_of_none htail]
          omega
    · rw [if_neg hfull] at h
      injection h with h
      subst h
      refine ⟨⟨nodup_fst_odSet hinv.1 v, ?_⟩, rfl⟩
      simp only [odSet_length_of_none hl]
      omega

theorem LRUCache.get_inv {K V : Type} [DecidableEq K] {c : LRUCache K V} (k : K)
    (hinv : CacheInv c) : CacheInv (c.get k).2 ∧ (c.get k).2.max_size = c.max_size := by
  unfold LRUCache.get
  cases hl : odLookup c.cache k with
  | none => exact ⟨hinv, rfl⟩
  | some w =>
    refine ⟨⟨nodup_fst_odMoveToEnd hinv.1, ?_⟩, rfl⟩
    simp only [odMoveToEnd_length hl]
    exact hinv.2

theorem runOps_inv {K V : Type} [DecidableEq K] :
    ∀ (ops : List (CacheOp K V)) (c c' : LRUCache K V), CacheInv c →
      runOps ops c = some c' → CacheInv c' ∧ c'.max_size = c.max_size := by
  intro ops
  induction ops with
  | nil =>
    intro c c' hinv h
    injection h with h
    exact h ▸ ⟨hinv, rfl⟩
  | cons op rest ih =>
    intro c c' hinv h
    cases op with
    | putOp k v =>
      simp only [runOps] at h
      cases hp : c.put k v with
      | none => rw [hp] at h; cases h
      | some c₁ =>
        rw [hp] at h
        have h₁ := LRUCache.put_inv hinv hp
        have h₂ := ih c₁ c' h₁.1 h
        exact ⟨h₂.1, h₂.2.trans h₁.2⟩
    | getOp k =>
      simp only [runOps] at h
      have h₁ := LRUCache.get_inv (c := c) k hinv
      have h₂ := ih _ c' h₁.1 h
      exact ⟨h₂.1, h₂.2.trans h₁.2⟩

theorem LRUCache.lookup_put {K V : Type} [DecidableEq K] {c c' : LRUCache K V} {k : K} {v : V}
    (h : c.put k v = some c') : odLookup c'.cache k = some v := by
  unfold LRUCache.put at h
  cases hl : odLookup c.cache k with
  | some w =>
    rw [hl] at h
    injection h with h
    subst h
    exact odLookup_odSet_self _ _ _
  | none =>
    rw [hl] at h
    by_cases hfull : c.max_size ≤ c.cache.length
    · rw [if_pos hfull] at h
      cases hc : c.cache with
      | nil => rw [hc] at h; cases h
      | cons hd tail =>
        rw [hc] at h
        injection h with h
        subst h
        exact odLookup_odSet_self _ _ _
    · rw [if_neg hfull] at h
      injection h with h
      subst h
      exact odLookup_odSet_self _ _ _

/-- C7: over any `put`/`get` sequence from a fresh `LRUCache` of capacity `C`
the size never exceeds `C`; a `get` immediately after a `put` of the same key
returns the value just stored; and a `put` on an already-present key keeps
exactly the same key population (no eviction) while making that key the
most-recently-used entry. -/
theorem lru_bounded_cache (K V : Type) [DecidableEq K] :
    (∀ (C : ℕ) (ops : List (CacheOp K V)) (c' : LRUCache K V),
        runOps ops (LRUCache.empty K V C) = some c' → c'.cache.length ≤ C)
    ∧ (∀ (c : LRUCache K V) (k : K) (v : V) (c' : LRUCache K V),
        CacheInv c → c.put k v = some c' → (c'.get k).1 = some v)
    ∧ (∀ (c : LRUCache K V) (k : K) (v w : V),
        CacheInv c → odLookup c.cache k = some w →
          ∃ c', c.put k v = some c'
            ∧ (c'.cache.map Prod.fst).Perm (c.cache.map Prod.fst)
            ∧ c'.cache.length = c.cache.length
            ∧ c'.cache.getLast? = some (k, v)) := by
  refine ⟨?_, ?_, ?_⟩
  · intro C ops c' hrun
    have hinv : CacheInv (LRUCache.empty K V C) := ⟨List.nodup_nil, by simp [LRUCache.empty]⟩
    have h := runOps_inv ops _ c' hinv hrun
    calc c'.cache.length ≤ c'.max_size := h.1.2
      _ = C := h.2
  · intro c k v c' hinv hput
    have hl : odLookup c'.cache k = some v := LRUCache.lookup_put hput
    have hnd : (c'.cache.map Prod.fst).Nodup := (LRUCache.put_inv hinv hput).1.1
    unfold LRUCache.get
    rw [hl]
    simp only
    exact (odLookup_odMoveToEnd hnd).trans hl
  · intro c k v w hinv hl
    refine ⟨{ c with cache := odSet (odMoveToEnd c.cache k) k v }, ?_, ?_, ?_, ?_⟩
    · unfold LRUCache.put
      rw [hl]
    · have hmv : odLookup (odMoveToEnd c.cache k) k = some w :=
        (odLookup_odMoveToEnd hinv.1).trans hl
      show ((odSet (odMoveToEnd c.cache k) k v).map Prod.fst).Perm (c.cache.map Prod.fst)
      rw [fst_odSet_of_some hmv]
      exact fst_odMoveToEnd_perm hl
    · have hmv : odLookup (odMoveToEnd c.cache k) k = some w :=
        (odLookup_odMoveToEnd hinv.1).trans hl
      show (odSet (odMoveToEnd c.cache k) k v).length = c.cache.length
      rw [odSet_length_of_mem hmv, odMoveToEnd_length hl]
    · have hnm : k ∉ (odRemove c.cache k).map Prod.fst := not_mem_fst_odRemove hinv.1
      show (odSet (odMoveToEnd c.cache k) k v).getLast? = some (k, v)
      simp only [odMoveToEnd, hl]
      rw [odSet_append_singleton hnm w v]
      exact List.getLast?_concat _

/-- Closed witness for `lru_bounded_cache` on a concrete run of capacity 2. -/
theorem lru_bounded_cache_witness :
    ({ cache := [(2, 20), (3, 30)], max_size := 2 } : LRUCache ℕ ℕ).cache.length ≤ 2
    ∧ (({ cache := [(2, 20), (1, 7)], max_size := 2 } : LRUCache ℕ ℕ).get 1).1 = some 7
    ∧ ∃ c', ({ cache := [(1, 5), (2, 20)], max_size := 2 } : LRUCache ℕ ℕ).put 1 7 = some c'
        ∧ (c'.cache.map Prod.fst).Perm ([(1, 5), (2, 20)].map Prod.fst)
        ∧ c'.cache.length = 2
        ∧ c'.cache.getLast? = some (1, 7) := by
  refine ⟨?_, ?_, ?_⟩
  · exact (lru_bounded_cache ℕ ℕ).1 2
      [CacheOp.putOp 1 10, CacheOp.putOp 2 20, CacheOp.putOp 3 30] _ rfl
  · exact (lru_bounded_cache ℕ ℕ).2.1 { cache := [(1, 5), (2, 20)], max_size := 2 } 1 7 _
      ⟨by decide, by decide⟩ rfl
  · exact (lru_bounded_cache ℕ ℕ).2.2 { cache := [(1, 5), (2, 20)], max_size := 2 } 1 7 5
      ⟨by decide, by decide⟩ rfl

/-! ## Levenshtein distance (`_levenshtein_ratio` in `youtube_scraper.py`)

The Python method computes the distance with a row-by-row dynamic program.
`levInner`/`levNextRow`/`levLoop` translate that program; `recLev` is the
textbook recursion on the first characters, used as the reference
specification.  The two are connected below (`levDistance_eq_recLev`). -/

/-- `(c1 != c2)` used as an integer cost. -/
def levCost (c1 c2 : Char) : ℕ := if c1 ≠ c2 then 1 else 0

/-- Textbook Levenshtein recursion (reference definition for the spec's
`levenshtein(a, b)`). -/
def recLev : List Char → List Char → ℕ
  | [], ys => ys.length
  | x :: xs, [] => (x :: xs).length
  | x :: xs, y :: ys =>
    min (recLev xs (y :: ys) + 1)
      (min (recLev (x :: xs) ys + 1) (recLev xs ys + levCost x y))
termination_by xs ys => xs.length + ys.length
decreasing_by all_goals simp_wf <;> omega

theorem recLev_nil_left (ys : List Char) : recLev [] ys = ys.length := by
  rw [recLev]

theorem recLev_nil_right (xs : List Char) : recLev xs [] = xs.length := by
  cases xs <;> rw [recLev]

theorem recLev_cons_cons (x y : Char) (xs ys : List Char) :
    recLev (x :: xs) (y :: ys) =
      min (recLev xs (y :: ys) + 1)
        (min (recLev (x :: xs) ys + 1) (recLev xs ys + levCost x y)) := by
  rw [recLev]

theorem levCost_comm (x y : Char) : levCost x y = levCost y x := by
  unfold levCost
  by_cases h : x = y <;> simp [h, Ne, eq_comm]

theorem levCost_le_one (x y : Char) : levCost x y ≤ 1 := by
  unfold levCost
  split <;> omega

theorem recLev_symm : ∀ xs ys : List Char, recLev xs ys = recLev ys xs := by
  intro xs
  induction xs with
  | nil => intro ys; rw [recLev_nil_left, recLev_nil_right]
  | cons x xs ihx =>
    intro ys
    induction ys with
    | nil => rw [recLev_nil_left, recLev_nil_right]
    | cons y ys ihy =>
      rw [recLev_cons_cons, recLev_cons_cons, ihx (y :: ys), ihx ys, ihy, levCost_comm]
      omega

theorem recLev_le_max : ∀ xs ys : List Char, recLev xs ys ≤ max xs.length ys.length := by
  intro xs
  induction xs with
  | nil => intro ys; rw [recLev_nil_left]; omega
  | cons x xs ihx =>
    intro ys
    induction ys with
    | nil => rw [recLev_nil_right]; simp
    | cons y ys ihy =>
      rw [recLev_cons_cons]
      have h1 := ihx ys
      have h2 := levCost_le_one x y
      simp only [List.length_cons]
      omega

set_option maxHeartbeats 1000000 in
theorem recLev_append_pair (x y : Char) :
    ∀ a b : List Char,
      recLev (a ++ [x]) (b ++ [y]) =
        min (recLev a (b ++ [y]) + 1)
          (min (recLev (a ++ [x]) b + 1) (recLev a b + levCost x y)) := by
  intro a
  induction a with
  | nil =>
    intro b
    induction b with
    | nil =>
      simp only [List.nil_append]
      rw [recLev_cons_cons, recLev_nil_left, recLev_nil_left, recLev_nil_right]
    | cons b₀ b' ihb =>
      simp only [List.nil_append] at ihb ⊢
      simp only [List.cons_append]
      rw [recLev_cons_cons x b₀, recLev_cons_cons x b₀, ihb]
      simp only [recLev_nil_left, List.length_append, List.length_cons, List.length_nil]
      omega
  | cons a₀ a' iha =>
    intro b
    induction b with
    | nil =>
      have h1 := iha []
      simp only [List.nil_append] at h1
      simp only [List.cons_append, List.nil_append]
      rw [recLev_cons_cons a₀ y, recLev_cons_cons a₀ y, h1]
      simp only [recLev_nil_right, List.length_append, List.length_cons, List.length_nil]
      omega
    | cons b₀ b' ihb =>
      have h1 := iha (b₀ :: b')
      have h2 := ihb
      have h3 := iha b'
      simp only [List.cons_append] at h1 h2 h3 ⊢
      rw [recLev_cons_cons a₀ b₀ (a' ++ [x]) (b' ++ [y]), h1, h2, h3]
      rw [recLev_cons_cons a₀ b₀ (a' ++ [x]) b', recLev_cons_cons a₀ b₀ a' (b' ++ [y]),
        recLev_cons_cons a₀ b₀ a' b']
      generalize recLev a' (b₀ :: (b' ++ [y])) = P
      generalize recLev (a' ++ [x]) (b₀ :: b') = Q
      generalize recLev a' (b₀ :: b') = R
      generalize recLev (a₀ :: a') (b' ++ [y]) = S
      generalize recLev (a₀ :: (a' ++ [x])) b' = T
      generalize recLev (a₀ :: a') b' = U
      generalize recLev a' (b' ++ [y]) = V
      generalize recLev (a' ++ [x]) b' = W
      generalize recLev a' b' = Z
      generalize levCost x y = c1
      generalize levCost a₀ b₀ = c2
      clear iha ihb h1 h2 h3
      apply le_antisymm
      · simp only [le_min_iff, min_le_iff]
        omega
      · simp only [le_min_iff, min_le_iff]
        omega

theorem recLev_reverse : ∀ a b : List Char, recLev a.reverse b.reverse = recLev a b := by
  intro a
  induction a with
  | nil =>
    intro b
    simp [recLev_nil_left]
  | cons a₀ a' iha =>
    intro b
    induction b with
    | nil =>
      simp [recLev_nil_right]
    | cons b₀ b' ihb =>
      have h1 := iha (b₀ :: b')
      rw [List.reverse_cons] at h1
      have h2 := ihb
      rw [List.reverse_cons] at h2
      have h3 := iha b'
      rw [List.reverse_cons, List.reverse_cons, recLev_append_pair, h1, h2, h3,
        recLev_cons_cons]

/-- Inner loop of the Python DP (`for j, c2 in enumerate(s2)`): `p0 :: p1 :: ps`
is the suffix of the previous row aligned at column `j`, `cur` the entry that
was just appended to the current row. -/
def levInner (c1 : Char) : List ℕ → List Char → ℕ → List ℕ
  | p0 :: p1 :: ps, c2 :: cs, cur =>
    min (p1 + 1) (min (cur + 1) (p0 + levCost c1 c2))
      :: levInner c1 (p1 :: ps) cs (min (p1 + 1) (min (cur + 1) (p0 + levCost c1 c2)))
  | _, _, _ => []

/-- `current_row = [i + 1]` followed by the inner loop. -/
def levNextRow (c1 : Char) (prev : List ℕ) (s2 : List Char) (i : ℕ) : List ℕ :=
  (i + 1) :: levInner c1 prev s2 (i + 1)

/-- Outer loop of the Python DP (`for i, c1 in enumerate(s1)`). -/
def levLoop (s2 : List Char) : List Char → List ℕ → ℕ → List ℕ
  | [], prev, _ => prev
  | c1 :: cs, prev, i => levLoop s2 cs (levNextRow c1 prev s2 i) (i + 1)

/-- `previous_row[-1]` after the last outer iteration: the DP distance
exactly as `_levenshtein_ratio` computes it (before normalising). -/
def levDistance (s1 s2 : List Char) : ℕ :=
  (levLoop s2 s1 (List.range (s2.length + 1)) 0).getLastD 0

/-- Intended contents of a DP row: distances between the processed part of
`s1` (kept reversed in `ra`) and each prefix of `s2` extending `b`. -/
def rowTail (ra : List Char) : List Char → List Char → List ℕ
  | b, [] => []
  | b, c :: cs => recLev ra (b ++ [c]).reverse :: rowTail ra (b ++ [c]) cs

def rowSpec (ra b rest : List Char) : List ℕ :=
  recLev ra b.reverse :: rowTail ra b rest

theorem levInner_spec (c1 : Char) (ra : List Char) :
    ∀ rest b : List Char,
      levInner c1 (rowSpec ra b rest) rest (recLev (c1 :: ra) b.reverse)
        = rowTail (c1 :: ra) b rest := by
  intro rest
  induction rest with
  | nil => intro b; simp [rowSpec, rowTail, levInner]
  | cons c2 cs ih =>
    intro b
    have hv : min (recLev ra (b ++ [c2]).reverse + 1)
        (min (recLev (c1 :: ra) b.reverse + 1) (recLev ra b.reverse + levCost c1 c2))
        = recLev (c1 :: ra) (b ++ [c2]).reverse := by
      have hrev : (b ++ [c2]).reverse = c2 :: b.reverse := by
        simp
      rw [hrev, recLev_cons_cons]
    simp only [rowSpec, rowTail, levInner]
    rw [hv]
    have hih := ih (b ++ [c2])
    rw [rowSpec] at hih
    rw [hih]

theorem levNextRow_spec (c1 : Char) (ra s2 : List Char) :
    levNextRow c1 (rowSpec ra [] s2) s2 ra.length = rowSpec (c1 :: ra) [] s2 := by
  unfold levNextRow
  have hlen : ra.length + 1 = recLev (c1 :: ra) ([] : List Char).reverse := by
    simp [recLev_nil_right]
  rw [hlen, levInner_spec c1 ra s2 []]
  rfl

theorem levLoop_spec (s2 : List Char) :
    ∀ rest ra : List Char,
      levLoop s2 rest (rowSpec ra [] s2) ra.length = rowSpec (rest.reverse ++ ra) [] s2 := by
  intro rest
  induction rest with
  | nil => intro ra; simp [levLoop]
  | cons c cs ih =>
    intro ra
    rw [levLoop, levNextRow_spec c ra s2]
    have h1 : ra.length + 1 = (c :: ra).length := by simp
    rw [h1, ih (c :: ra)]
    have h2 : (c :: cs).reverse ++ ra = cs.reverse ++ (c :: ra) := by
      simp
    rw [h2]

theorem rowTail_range : ∀ rest b : List Char,
    rowTail [] b rest = (List.range rest.length).map (fun j => b.length + (j + 1)) := by
  intro rest
  induction rest with
  | nil => intro b; simp [rowTail]
  | cons c cs ihc =>
    intro b
    rw [rowTail, ihc (b ++ [c])]
    simp only [List.length_cons, List.range_succ_eq_map, List.map_cons, List.map_map]
    congr 1
    · simp [recLev_nil_left]
    · apply List.map_congr_left
      intro j hj
      simp [Function.comp]
      omega

theorem range_eq_rowSpec (s2 : List Char) :
    List.range (s2.length + 1) = rowSpec [] [] s2 := by
  rw [rowSpec, rowTail_range s2 [], List.range_succ_eq_map]
  congr 1
  · simp [recLev_nil_left]
  · apply List.map_congr_left
    intro j hj
    simp

theorem rowSpec_getLastD (ra : List Char) : ∀ (rest b : List Char) (d : ℕ),
    (rowSpec ra b rest).getLastD d = recLev ra (b ++ rest).reverse := by
  intro rest
  induction rest with
  | nil => intro b d; simp [rowSpec, rowTail]
  | cons c cs ih =>
    intro b d
    have h1 : rowSpec ra b (c :: cs) = recLev ra b.reverse :: rowSpec ra (b ++ [c]) cs := by
      rw [rowSpec, rowTail, rowSpec]
    rw [h1, List.getLastD_cons, ih (b ++ [c])]
    congr 1
    simp

theorem levDistance_eq_recLev (s1 s2 : List Char) : levDistance s1 s2 = recLev s1 s2 := by
  unfold levDistance
  rw [range_eq_rowSpec]
  have h := levLoop_spec s2 s1 []
  simp only [List.length_nil] at h
  rw [h, rowSpec_getLastD]
  simp only [List.append_nil, List.nil_append]
  exact recLev_reverse s1 s2

/-! ## Email normalisation and similarity (`youtube_scraper.py`)

`normalize_email`, `calculate_email_similarity` and `_levenshtein_ratio` are
translated below.  `str.lower` is modelled by `Char.toLower` (ASCII case
folding), float scores by `ℚ`; the `self.email_domains` statistics update in
`normalize_email` is a side effect that does not influence the returned
value and is omitted. -/

/-- `c in s` for a Python string. -/
def chContains : List Char → Char → Bool
  | [], _ => false
  | x :: xs, c => x = c || chContains xs c

/-- `s.lower()` (ASCII). -/
def pyLower (s : List Char) : List Char := s.map Char.toLower

/-- `s.strip()`. -/
def pyStrip (s : List Char) : List Char :=
  ((s.dropWhile Char.isWhitespace).reverse.dropWhile Char.isWhitespace).reverse

/-- `s.split(sep, 1)`: the part before the first separator and the rest.  All
call sites first check that the separator occurs. -/
def splitFirst (sep : Char) : List Char → List Char × List Char
  | [] => ([], [])
  | x :: xs =>
    if x = sep then ([], xs)
    else
      let p := splitFirst sep xs
      (x :: p.1, p.2)

/-- `s.startswith(p)`. -/
def strStarts : List Char → List Char → Bool
  | _, [] => true
  | [], _ :: _ => false
  | x :: xs, y :: ys => x = y && strStarts xs ys

/-- `re.sub(r'\d+$', '', u)`: drop the maximal run of trailing digits. -/
def dropTrailingDigits (u : List Char) : List Char :=
  (u.reverse.dropWhile Char.isDigit).reverse

/-- One iteration of the prefix-stripping loop in `normalize_email`. -/
def stripPfx (u p : List Char) : List Char :=
  if strStarts u p ∧ p.length + 1 < u.length then
    match u.drop p.length with
    | c :: rest => if c = '.' ∨ c = '-' ∨ c = '_' then rest else u
    | [] => u
  else u

def emailPfxs : List (List Char) :=
  (["contact", "info", "support", "admin", "mail", "email", "hello", "business"]).map
    String.data

/-- `YouTubeChannelScraper.normalize_email`. -/
def normalize_email (email : String) : String :=
  if email.data = [] ∨ ¬ chContains email.data '@' then email
  else
    let low := pyStrip (pyLower email.data)
    let p := splitFirst '@' low
    let username := p.1
    let domain := p.2
    let q :=
      if domain = ("gmail.com").data ∨ domain = ("googlemail.com").data then
        let u1 := username.filter (fun c => c != '.')
        let u2 := if chContains u1 '+' then (splitFirst '+' u1).1 else u1
        (u2, ("gmail.com").data)
      else (username, domain)
    let username := emailPfxs.foldl stripPfx q.1
    let und := dropTrailingDigits username
    let username := if 2 < und.length ∧ und ≠ username then und else username
    String.mk (username ++ '@' :: q.2)

/-- `YouTubeChannelScraper._levenshtein_ratio`. -/
def levenshtein_ratio (s1 s2 : List Char) : ℚ :=
  if s1 = s2 then 1
  else
    let p := if s1.length < s2.length then (s2, s1) else (s1, s2)
    if p.1.length = 0 then 0
    else 1 - (levDistance p.1 p.2 : ℚ) / ((max p.1.length p.2.length : ℕ) : ℚ)

/-- `YouTubeChannelScraper.calculate_email_similarity`. -/
def calculate_email_similarity (email1 email2 : String) : ℚ :=
  if email1 = email2 then 1
  else if ¬ chContains email1.data '@' ∨ ¬ chContains email2.data '@' then 0
  else
    let p1 := splitFirst '@' (pyLower email1.data)
    let p2 := splitFirst '@' (pyLower email2.data)
    if p1.2 ≠ p2.2 then 0
    else if p1.1.length ≤ 3 ∨ p2.1.length ≤ 3 then
      if p1.1 = p2.1 then 1 else 0
    else
      let similarity := levenshtein_ratio p1.1 p2.1
      if strStarts p1.1 p2.1 ∨ strStarts p2.1 p1.1 then
        min 1 (similarity + (0.15 : ℚ))
      else similarity

/-- The similarity formula in the spec's words: normalised edit distance with
a `+0.15` bonus, capped at `1.0`, when one local part is a prefix of the
other (`recLev` being the textbook Levenshtein distance). -/
def specSimilarity (a b : List Char) : ℚ :=
  min 1 ((1 - (recLev a b : ℚ) / ((max a.length b.length : ℕ) : ℚ))
    + (if a <+: b ∨ b <+: a then (0.15 : ℚ) else 0))

theorem recLev_self : ∀ xs : List Char, recLev xs xs = 0 := by
  intro xs
  induction xs with
  | nil => rw [recLev_nil_left]; rfl
  | cons x xs ih =>
    rw [recLev_cons_cons, ih]
    have hc : levCost x x = 0 := by simp [levCost]
    omega

theorem levenshtein_ratio_eq_spec (s1 s2 : List Char) :
    levenshtein_ratio s1 s2 =
      1 - (recLev s1 s2 : ℚ) / ((max s1.length s2.length : ℕ) : ℚ) := by
  by_cases he : s1 = s2
  · subst he
    simp [levenshtein_ratio, recLev_self]
  · simp only [levenshtein_ratio, if_neg he]
    by_cases hlt : s1.length < s2.length
    · have hz : ¬ (s2.length = 0) := by omega
      simp only [if_pos hlt, if_neg hz]
      rw [levDistance_eq_recLev, recLev_symm s2 s1, Nat.max_comm]
    · by_cases hz : s1.length = 0
      · exfalso
        have h1 : s1 = [] := List.length_eq_zero.mp hz
        have h2 : s2.length = 0 := by omega
        have h3 : s2 = [] := List.length_eq_zero.mp h2
        exact he (h1.trans h3.symm)
      · simp only [if_neg hlt, if_neg hz]
        rw [levDistance_eq_recLev]

theorem levenshtein_ratio_symm (s1 s2 : List Char) :
    levenshtein_ratio s1 s2 = levenshtein_ratio s2 s1 := by
  rw [levenshtein_ratio_eq_spec, levenshtein_ratio_eq_spec, recLev_symm s1 s2, Nat.max_comm]

theorem levenshtein_ratio_range (s1 s2 : List Char) :
    0 ≤ levenshtein_ratio s1 s2 ∧ levenshtein_ratio s1 s2 ≤ 1 := by
  rw [levenshtein_ratio_eq_spec]
  have hd := recLev_le_max s1 s2
  by_cases hm : max s1.length s2.length = 0
  · have hd0 : recLev s1 s2 = 0 := by omega
    rw [hd0, hm]
    norm_num
  · have hm' : (0 : ℚ) < ((max s1.length s2.length : ℕ) : ℚ) := by
      exact_mod_cast Nat.pos_of_ne_zero hm
    have hdm : (recLev s1 s2 : ℚ) / ((max s1.length s2.length : ℕ) : ℚ) ≤ 1 :=
      (div_le_one hm').2 (by exact_mod_cast hd)
    have hdm0 : 0 ≤ (recLev s1 s2 : ℚ) / ((max s1.length s2.length : ℕ) : ℚ) :=
      div_nonneg (by positivity) hm'.le
    constructor <;> linarith

theorem calculate_email_similarity_symm (e1 e2 : String) :
    calculate_email_similarity e1 e2 = calculate_email_similarity e2 e1 := by
  by_cases he : e1 = e2
  · subst he; rfl
  · have he' : ¬ (e2 = e1) := fun h => he h.symm
    simp only [calculate_email_similarity, if_neg he, if_neg he']
    by_cases hat : ¬ chContains e1.data '@' ∨ ¬ chContains e2.data '@'
    · rw [if_pos hat, if_pos (Or.symm hat)]
    · rw [if_neg hat, if_neg (fun h => hat (Or.symm h))]
      by_cases hd : (splitFirst '@' (pyLower e1.data)).2 ≠ (splitFirst '@' (pyLower e2.data)).2
      · rw [if_pos hd, if_pos (Ne.symm hd)]
      · rw [if_neg hd, if_neg (fun h => hd (Ne.symm h))]
        by_cases hs : (splitFirst '@' (pyLower e1.data)).1.length ≤ 3
            ∨ (splitFirst '@' (pyLower e2.data)).1.length ≤ 3
        · rw [if_pos hs, if_pos (Or.symm hs)]
          by_cases hu : (splitFirst '@' (pyLower e1.data)).1 = (splitFirst '@' (pyLower e2.data)).1
          · rw [if_pos hu, if_pos hu.symm]
          · rw [if_neg hu, if_neg (fun h => hu h.symm)]
        · rw [if_neg hs, if_neg (fun h => hs (Or.symm h))]
          rw [levenshtein_ratio_symm (splitFirst '@' (pyLower e1.data)).1
            (splitFirst '@' (pyLower e2.data)).1]
          by_cases hp : (strStarts (splitFirst '@' (pyLower e1.data)).1
              (splitFirst '@' (pyLower e2.data)).1 : Prop)
            ∨ (strStarts (splitFirst '@' (pyLower e2.data)).1
              (splitFirst '@' (pyLower e1.data)).1 : Prop)
          · rw [if_pos hp, if_pos (Or.symm hp)]
          · rw [if_neg hp, if_neg (fun h => hp (Or.symm h))]

theorem calculate_email_similarity_range (e1 e2 : String) :
    0 ≤ calculate_email_similarity e1 e2 ∧ calculate_email_similarity e1 e2 ≤ 1 := by
  have hr := levenshtein_ratio_range (splitFirst '@' (pyLower e1.data)).1
    (splitFirst '@' (pyLower e2.data)).1
  by_cases he : e1 = e2
  · simp [calculate_email_similarity, he]
  · simp only [calculate_email_similarity, if_neg he]
    by_cases hat : ¬ chContains e1.data '@' ∨ ¬ chContains e2.data '@'
    · rw [if_pos hat]; norm_num
    · rw [if_neg hat]
      by_cases hd : (splitFirst '@' (pyLower e1.data)).2 ≠ (splitFirst '@' (pyLower e2.data)).2
      · rw [if_pos hd]; norm_num
      · rw [if_neg hd]
        by_cases hs : (splitFirst '@' (pyLower e1.data)).1.length ≤ 3
            ∨ (splitFirst '@' (pyLower e2.data)).1.length ≤ 3
        · rw [if_pos hs]
          by_cases hu : (splitFirst '@' (pyLower e1.data)).1 = (splitFirst '@' (pyLower e2.data)).1
          · rw [if_pos hu]; norm_num
          · rw [if_neg hu]; norm_num
        · rw [if_neg hs]
          by_cases hp : (strStarts (splitFirst '@' (pyLower e1.data)).1
              (splitFirst '@' (pyLower e2.data)).1 : Prop)
            ∨ (strStarts (splitFirst '@' (pyLower e2.data)).1
              (splitFirst '@' (pyLower e1.data)).1 : Prop)
          · rw [if_pos hp]
            constructor
            · exact le_min (by norm_num) (by linarith [hr.1])
            · exact le_trans (min_le_left _ _) (by norm_num)
          · rw [if_neg hp]; exact hr

/-- C10: `calculate_email_similarity` is symmetric in its two arguments and
always returns a score in the closed interval `[0, 1]`, for arbitrary input
strings (well-formed email addresses or not). -/
theorem email_similarity_symm_and_range (a b : String) :
    calculate_email_similarity a b = calculate_email_similarity b a
    ∧ 0 ≤ calculate_email_similarity a b
    ∧ calculate_email_similarity a b ≤ 1 :=
  ⟨calculate_email_similarity_symm a b, (calculate_email_similarity_range a b).1,
    (calculate_email_similarity_range a b).2⟩

theorem chContains_iff (s : List Char) (c : Char) : chContains s c = true ↔ c ∈ s := by
  induction s with
  | nil => simp [chContains]
  | cons x xs ih =>
    simp only [chContains, Bool.or_eq_true, decide_eq_true_eq, ih, List.mem_cons]
    exact or_congr_left eq_comm

theorem splitFirst_append (sep : Char) (u v : List Char) (h : sep ∉ u) :
    splitFirst sep (u ++ sep :: v) = (u, v) := by
  induction u with
  | nil => simp [splitFirst]
  | cons x xs ih =>
    simp only [List.mem_cons] at h
    push_neg at h
    have hx : ¬ (x = sep) := fun he => h.1 he.symm
    simp [splitFirst, hx, ih h.2]

theorem pyLower_append (a b : List Char) : pyLower (a ++ b) = pyLower a ++ pyLower b := by
  simp [pyLower]

theorem mem_pyLower_of_mem {c : Char} {s : List Char} (hc : Char.toLower c = c)
    (hm : c ∈ s) : c ∈ pyLower s := by
  have := List.mem_map_of_mem Char.toLower hm
  rwa [hc] at this

theorem strStarts_iff : ∀ a b : List Char, strStarts a b = true ↔ b <+: a := by
  intro a
  induction a with
  | nil =>
    intro b
    cases b <;> simp [strStarts]
  | cons x xs ih =>
    intro b
    cases b with
    | nil => simp [strStarts]
    | cons y ys =>
      simp only [strStarts, Bool.and_eq_true, decide_eq_true_eq, ih, List.cons_prefix_cons]
      exact and_congr_left' eq_comm

theorem calc_sim_short (u1 u2 d : String)
    (h1 : '@' ∉ pyLower u1.data) (h2 : '@' ∉ pyLower u2.data)
    (hl1 : u1.data.length ≤ 3) (hl2 : u2.data.length ≤ 3) :
    calculate_email_similarity (String.mk (u1.data ++ '@' :: d.data))
      (String.mk (u2.data ++ '@' :: d.data))
      = if pyLower u1.data = pyLower u2.data then 1 else 0 := by
  have h1' : '@' ∉ u1.data := fun hm => h1 (mem_pyLower_of_mem (by decide) hm)
  have h2' : '@' ∉ u2.data := fun hm => h2 (mem_pyLower_of_mem (by decide) hm)
  by_cases he : String.mk (u1.data ++ '@' :: d.data) = String.mk (u2.data ++ '@' :: d.data)
  · have hdata : u1.data ++ '@' :: d.data = u2.data ++ '@' :: d.data :=
      congrArg String.data he
    have hsp := congrArg (splitFirst '@') hdata
    rw [splitFirst_append _ _ _ h1', splitFirst_append _ _ _ h2'] at hsp
    have hu : u1.data = u2.data := (Prod.mk.injEq _ _ _ _ ▸ hsp).1
    rw [he, if_pos (by rw [hu])]
    simp [calculate_email_similarity]
  · have hsplit1 : splitFirst '@' (pyLower (u1.data ++ '@' :: d.data))
        = (pyLower u1.data, pyLower d.data) := by
      have : pyLower (u1.data ++ '@' :: d.data)
          = pyLower u1.data ++ '@' :: pyLower d.data := by
        rw [pyLower_append]; rfl
      rw [this, splitFirst_append _ _ _ h1]
    have hsplit2 : splitFirst '@' (pyLower (u2.data ++ '@' :: d.data))
        = (pyLower u2.data, pyLower d.data) := by
      have : pyLower (u2.data ++ '@' :: d.data)
          = pyLower u2.data ++ '@' :: pyLower d.data := by
        rw [pyLower_append]; rfl
      rw [this, splitFirst_append _ _ _ h2]
    have hc1 : chContains (u1.data ++ '@' :: d.data) '@' = true :=
      (chContains_iff _ _).2 (List.mem_append_right _ (List.mem_cons_self _ _))
    have hc2 : chContains (u2.data ++ '@' :: d.data) '@' = true :=
      (chContains_iff _ _).2 (List.mem_append_right _ (List.mem_cons_self _ _))
    simp only [calculate_email_similarity, if_neg he]
    rw [if_neg (by rw [hc1, hc2]; simp)]
    simp only [hsplit1, hsplit2]
    rw [if_neg (by simp)]
    rw [if_pos (by simp only [pyLower, List.length_map]; omega)]

theorem calc_sim_long (u1 u2 d : String)
    (h1 : '@' ∉ pyLower u1.data) (h2 : '@' ∉ pyLower u2.data)
    (hl1 : 3 < u1.data.length) (hl2 : 3 < u2.data.length)
    (hne : String.mk (u1.data ++ '@' :: d.data) ≠ String.mk (u2.data ++ '@' :: d.data)) :
    calculate_email_similarity (String.mk (u1.data ++ '@' :: d.data))
      (String.mk (u2.data ++ '@' :: d.data))
      = specSimilarity (pyLower u1.data) (pyLower u2.data) := by
  have hsplit1 : splitFirst '@' (pyLower (u1.data ++ '@' :: d.data))
      = (pyLower u1.data, pyLower d.data) := by
    have : pyLower (u1.data ++ '@' :: d.data)
        = pyLower u1.data ++ '@' :: pyLower d.data := by
      rw [pyLower_append]; rfl
    rw [this, splitFirst_append _ _ _ h1]
  have hsplit2 : splitFirst '@' (pyLower (u2.data ++ '@' :: d.data))
      = (pyLower u2.data, pyLower d.data) := by
    have : pyLower (u2.data ++ '@' :: d.data)
        = pyLower u2.data ++ '@' :: pyLower d.data := by
      rw [pyLower_append]; rfl
    rw [this, splitFirst_append _ _ _ h2]
  have hc1 : chContains (u1.data ++ '@' :: d.data) '@' = true :=
    (chContains_iff _ _).2 (List.mem_append_right _ (List.mem_cons_self _ _))
  have hc2 : chContains (u2.data ++ '@' :: d.data) '@' = true :=
    (chContains_iff _ _).2 (List.mem_append_right _ (List.mem_cons_self _ _))
  simp only [calculate_email_similarity, if_neg hne]
  rw [if_neg (by rw [hc1, hc2]; simp)]
  simp only [hsplit1, hsplit2]
  rw [if_neg (by simp)]
  rw [if_neg (by simp only [pyLower, List.length_map]; omega)]
  have hcond : (strStarts (pyLower u1.data) (pyLower u2.data) = true
      ∨ strStarts (pyLower u2.data) (pyLower u1.data) = true)
      ↔ (pyLower u1.data <+: pyLower u2.data ∨ pyLower u2.data <+: pyLower u1.data) := by
    rw [strStarts_iff, strStarts_iff]
    exact or_comm
  unfold specSimilarity
  by_cases hb : pyLower u1.data <+: pyLower u2.data ∨ pyLower u2.data <+: pyLower u1.data
  · rw [if_pos (hcond.2 hb), if_pos hb, levenshtein_ratio_eq_spec]
  · rw [if_neg (fun h => hb (hcond.1 h)), if_neg hb, levenshtein_ratio_eq_spec, add_zero]
    have h1le : 1 - (recLev (pyLower u1.data) (pyLower u2.data) : ℚ)
        / ((max (pyLower u1.data).length (pyLower u2.data).length : ℕ) : ℚ) ≤ 1 := by
      rw [← levenshtein_ratio_eq_spec]
      exact (levenshtein_ratio_range _ _).2
    exact (min_eq_right h1le).symm

/-- C8: the reference similarity values after normalisation — the two Gmail
variants score `≥ 0.85`, `abc`/`xyz` at the same domain score `< 0.85`, and
equal locals at different domains score `0`; in general, same-domain local
parts that are both at most 3 characters long score `1` exactly on (case
folded) equality and `0` otherwise, while longer local parts score the
spec's formula `min 1 (1 - levenshtein/max + prefix bonus)`
(`specSimilarity`, built on the textbook distance `recLev`). -/
theorem email_similarity_examples_and_formula :
    ((0.85 : ℚ) ≤ calculate_email_similarity
        (normalize_email ("john.doe+promo@gmail.com")) (normalize_email ("johndoe@gmail.com")))
    ∧ calculate_email_similarity ("abc@x.com") ("xyz@x.com") < (0.85 : ℚ)
    ∧ calculate_email_similarity ("a@x.com") ("a@y.com") = 0
    ∧ (∀ u1 u2 d : String, '@' ∉ pyLower u1.data → '@' ∉ pyLower u2.data →
        u1.data.length ≤ 3 → u2.data.length ≤ 3 →
        calculate_email_similarity (String.mk (u1.data ++ '@' :: d.data))
            (String.mk (u2.data ++ '@' :: d.data))
          = if pyLower u1.data = pyLower u2.data then 1 else 0)
    ∧ (∀ u1 u2 d : String, '@' ∉ pyLower u1.data → '@' ∉ pyLower u2.data →
        3 < u1.data.length → 3 < u2.data.length →
        String.mk (u1.data ++ '@' :: d.data) ≠ String.mk (u2.data ++ '@' :: d.data) →
        calculate_email_similarity (String.mk (u1.data ++ '@' :: d.data))
            (String.mk (u2.data ++ '@' :: d.data))
          = specSimilarity (pyLower u1.data) (pyLower u2.data)) := by
  refine ⟨?_, ?_, ?_, calc_sim_short, calc_sim_long⟩
  · have h : calculate_email_similarity (normalize_email ("john.doe+promo@gmail.com"))
        (normalize_email ("johndoe@gmail.com")) = 1 := rfl
    rw [h]; norm_num
  · have h : calculate_email_similarity ("abc@x.com") ("xyz@x.com") = 0 := rfl
    rw [h]; norm_num
  · rfl

/-- Closed witness for the two quantified clauses of
`email_similarity_examples_and_formula` at concrete inputs. -/
theorem email_similarity_formula_witness :
    calculate_email_similarity ("ab@x.com") ("xy@x.com")
        = (if pyLower ("ab").data = pyLower ("xy").data then 1 else 0)
    ∧ calculate_email_similarity ("abcd@x.com") ("abce@x.com")
        = specSimilarity (pyLower ("abcd").data) (pyLower ("abce").data) := by
  constructor
  · have h := email_similarity_examples_and_formula.2.2.2.1 "ab" "xy" "x.com"
      (by decide) (by decide) (by decide) (by decide)
    have he1 : String.mk (("ab" : String).data ++ '@' :: ("x.com" : String).data)
        = ("ab@x.com" : String) := rfl
    have he2 : String.mk (("xy" : String).data ++ '@' :: ("x.com" : String).data)
        = ("xy@x.com" : String) := rfl
    rw [he1, he2] at h
    exact h
  · have h := email_similarity_examples_and_formula.2.2.2.2 "abcd" "abce" "x.com"
      (by decide) (by decide) (by decide) (by decide) (by decide)
    have he1 : String.mk (("abcd" : String).data ++ '@' :: ("x.com" : String).data)
        = ("abcd@x.com" : String) := rfl
    have he2 : String.mk (("abce" : String).data ++ '@' :: ("x.com" : String).data)
        = ("abce@x.com" : String) := rfl
    rw [he1, he2] at h
    exact h

/-! ## Fuzzy deduplication (`remove_email_duplicates` in `youtube_scraper.py`)

The similarity-filter branch (`filter_similar_emails` enabled, the default)
is modelled on an explicit email list: normalise every candidate, group by
single-linkage from each unprocessed seed, then keep one representative per
group chosen by `min` over (uncommon domain, length, string). -/

/-- Inner loop (`for other in emails`): pull every unprocessed candidate
whose similarity to the seed reaches the threshold; returns the pulled
candidates and the updated `processed` set. -/
def pullGroup (θ : ℚ) (norm : String → String) (seed : String) :
    List String → List String → List String × List String
  | [], proc => ([], proc)
  | o :: os, proc =>
    if o ≠ seed ∧ o ∉ proc ∧ θ ≤ calculate_email_similarity (norm seed) (norm o) then
      ((pullGroup θ norm seed os (o :: proc)).1.cons o,
        (pullGroup θ norm seed os (o :: proc)).2)
    else pullGroup θ norm seed os proc

/-- Outer loop (`for email in emails`): each unprocessed email seeds a new
group. -/
def groupsGo (θ : ℚ) (norm : String → String) (all : List String) :
    List String → List String → List (List String)
  | [], _ => []
  | e :: rest, proc =>
    if e ∈ proc then groupsGo θ norm all rest proc
    else
      (e :: (pullGroup θ norm e all (e :: proc)).1)
        :: groupsGo θ norm all rest (pullGroup θ norm e all (e :: proc)).2

def email_groups (θ : ℚ) (norm : String → String) (emails : List String) :
    List (List String) :=
  groupsGo θ norm emails emails []

/-- `e.split('@')[-1]`. -/
def afterLastAt (e : String) : String :=
  String.mk ((splitFirst '@' e.data.reverse).1.reverse)

def common3 : List String := ["gmail.com", "yahoo.com", "hotmail.com"]

/-- The `min` key `(domain not common, length, string)`. -/
def bestKey (e : String) : Bool × ℕ × String :=
  (decide (afterLastAt e ∉ common3), e.length, e)

/-- Python tuple `<` on such keys: `False < True` on booleans, and strings
are compared lexicographically by code point (their character lists). -/
def keyLt (a b : Bool × ℕ × String) : Prop :=
  (a.1 = false ∧ b.1 = true)
    ∨ (a.1 = b.1 ∧ (a.2.1 < b.2.1 ∨ (a.2.1 = b.2.1 ∧ a.2.2.data < b.2.2.data)))

instance (a b : Bool × ℕ × String) : Decidable (keyLt a b) := by
  unfold keyLt
  infer_instance

/-- `min(iterable, key=...)`: the first element with the least key. -/
def pyMinBy (key : String → Bool × ℕ × String) : String → List String → String
  | b, [] => b
  | b, x :: xs => if keyLt (key x) (key b) then pyMinBy key x xs else pyMinBy key b xs

/-- Representative choice per group. -/
def best_email (g : List String) : String :=
  match g with
  | [] => ""
  | e :: rest => if rest = [] then e else pyMinBy bestKey e rest

/-- `YouTubeChannelScraper.remove_email_duplicates` (similarity branch) on an
explicit list: one deduplication pass. -/
def remove_email_duplicates (θ : ℚ) (emails : List String) : List String :=
  (email_groups θ normalize_email emails).map best_email

theorem pullGroup_cons_true {θ : ℚ} {norm : String → String} {seed o : String}
    {os proc : List String}
    (h : o ≠ seed ∧ o ∉ proc ∧ θ ≤ calculate_email_similarity (norm seed) (norm o)) :
    pullGroup θ norm seed (o :: os) proc
      = ((pullGroup θ norm seed os (o :: proc)).1.cons o,
        (pullGroup θ norm seed os (o :: proc)).2) := by
  rw [pullGroup, if_pos h]

theorem pullGroup_cons_false {θ : ℚ} {norm : String → String} {seed o : String}
    {os proc : List String}
    (h : ¬ (o ≠ seed ∧ o ∉ proc ∧ θ ≤ calculate_email_similarity (norm seed) (norm o))) :
    pullGroup θ norm seed (o :: os) proc = pullGroup θ norm seed os proc := by
  rw [pullGroup, if_neg h]

def exA : String := "abcdefghijk@x.com"

def exB : String := "abcdefghij@x.com"

def exC : String := "abcdefghix@x.com"

theorem normA : normalize_email exA = exA := rfl

theorem normB : normalize_email exB = exB := rfl

theorem normC : normalize_email exC = exC := rfl

theorem simAB : calculate_email_similarity exA exB = 1 := by
  have h1 : splitFirst '@' (pyLower exA.data) = (("abcdefghijk").data, ("x.com").data) := rfl
  have h2 : splitFirst '@' (pyLower exB.data) = (("abcdefghij").data, ("x.com").data) := rfl
  simp only [calculate_email_similarity]
  rw [if_neg (by decide), if_neg (by decide), h1, h2,
    if_neg (by decide), if_neg (by decide), if_pos (by decide)]
  rw [levenshtein_ratio_eq_spec]
  have hd : recLev (("abcdefghijk").data) (("abcdefghij").data) = 1 := by
    rw [← levDistance_eq_recLev]; decide
  have hm : max (("abcdefghijk").data.length) (("abcdefghij").data.length) = 11 := by decide
  rw [hd, hm]
  rw [min_eq_left (by norm_num)]

theorem simAC : calculate_email_similarity exA exC = 9 / 11 := by
  have h1 : splitFirst '@' (pyLower exA.data) = (("abcdefghijk").data, ("x.com").data) := rfl
  have h2 : splitFirst '@' (pyLower exC.data) = (("abcdefghix").data, ("x.com").data) := rfl
  simp only [calculate_email_similarity]
  rw [if_neg (by decide), if_neg (by decide), h1, h2,
    if_neg (by decide), if_neg (by decide), if_neg (by decide)]
  rw [levenshtein_ratio_eq_spec]
  have hd : recLev (("abcdefghijk").data) (("abcdefghix").data) = 2 := by
    rw [← levDistance_eq_recLev]; decide
  have hm : max (("abcdefghijk").data.length) (("abcdefghix").data.length) = 11 := by decide
  rw [hd, hm]
  norm_num

theorem simCA : calculate_email_similarity exC exA = 9 / 11 := by
  rw [calculate_email_similarity_symm exC exA, simAC]

theorem simBC : calculate_email_similarity exB exC = 9 / 10 := by
  have h1 : splitFirst '@' (pyLower exB.data) = (("abcdefghij").data, ("x.com").data) := rfl
  have h2 : splitFirst '@' (pyLower exC.data) = (("abcdefghix").data, ("x.com").data) := rfl
  simp only [calculate_email_similarity]
  rw [if_neg (by decide), if_neg (by decide), h1, h2,
    if_neg (by decide), if_neg (by decide), if_neg (by decide)]
  rw [levenshtein_ratio_eq_spec]
  have hd : recLev (("abcdefghij").data) (("abcdefghix").data) = 1 := by
    rw [← levDistance_eq_recLev]; decide
  have hm : max (("abcdefghij").data.length) (("abcdefghix").data.length) = 10 := by decide
  rw [hd, hm]
  norm_num

theorem pullA : pullGroup (0.85 : ℚ) normalize_email exA [exA, exB, exC] [exA]
    = ([exB], [exB, exA]) := by
  rw [pullGroup_cons_false (fun h => h.1 rfl)]
  rw [pullGroup_cons_true ⟨by decide, by decide, by rw [normA, normB, simAB]; norm_num⟩]
  rw [pullGroup_cons_false (fun h => absurd h.2.2 (by rw [normA, normC, simAC]; norm_num))]
  rfl

theorem pullC : pullGroup (0.85 : ℚ) normalize_email exC [exA, exB, exC] [exC, exB, exA]
    = ([], [exC, exB, exA]) := by
  rw [pullGroup_cons_false (fun h => absurd h.2.2 (by rw [normC, normA, simCA]; norm_num))]
  rw [pullGroup_cons_false (fun h => h.2.1 (by decide))]
  rw [pullGroup_cons_false (fun h => h.1 rfl)]
  rfl

theorem groupsAll : email_groups (0.85 : ℚ) normalize_email [exA, exB, exC]
    = [[exA, exB], [exC]] := by
  unfold email_groups
  rw [groupsGo, if_neg (by decide), pullA]
  rw [groupsGo, if_pos (by decide)]
  rw [groupsGo, if_neg (by decide), pullC]
  rfl

theorem dedupAll : remove_email_duplicates (0.85 : ℚ) [exA, exB, exC] = [exB, exC] := by
  unfold remove_email_duplicates
  rw [groupsAll]
  rfl

theorem pullB2 : pullGroup (0.85 : ℚ) normalize_email exB [exB, exC] [exB]
    = ([exC], [exC, exB]) := by
  rw [pullGroup_cons_false (fun h => h.1 rfl)]
  rw [pullGroup_cons_true ⟨by decide, by decide, by rw [normB, normC, simBC]; norm_num⟩]
  rfl

theorem groups2 : email_groups (0.85 : ℚ) normalize_email [exB, exC] = [[exB, exC]] := by
  unfold email_groups
  rw [groupsGo, if_neg (by decide), pullB2]
  rw [groupsGo, if_pos (by decide)]
  rfl

theorem dedup2 : remove_email_duplicates (0.85 : ℚ) [exB, exC] = [exB] := by
  unfold remove_email_duplicates
  rw [groups2]
  rfl

/-- C9 counterexample: one deduplication pass on three same-domain addresses
keeps two representatives whose mutual similarity still reaches the
threshold, and a second pass merges them — the output set shrinks, so the
pass is not idempotent. -/
theorem dedup_not_idempotent :
    remove_email_duplicates (0.85 : ℚ) [exA, exB, exC] = [exB, exC]
    ∧ remove_email_duplicates (0.85 : ℚ)
        (remove_email_duplicates (0.85 : ℚ) [exA, exB, exC]) = [exB]
    ∧ exC ∈ remove_email_duplicates (0.85 : ℚ) [exA, exB, exC]
    ∧ exC ∉ remove_email_duplicates (0.85 : ℚ)
        (remove_email_duplicates (0.85 : ℚ) [exA, exB, exC]) := by
  refine ⟨dedupAll, ?_, ?_, ?_⟩
  · rw [dedupAll]; exact dedup2
  · rw [dedupAll]; decide
  · rw [dedupAll, dedup2]; decide

theorem pullGroup_none (θ : ℚ) (norm : String → String) (seed : String) :
    ∀ all proc : List String,
      (∀ o ∈ all, o = seed ∨ ¬ (θ ≤ calculate_email_similarity (norm seed) (norm o))) →
      pullGroup θ norm seed all proc = ([], proc) := by
  intro all
  induction all with
  | nil => intro proc _; rfl
  | cons o os ih =>
    intro proc h
    have hcond : ¬ (o ≠ seed ∧ o ∉ proc
        ∧ θ ≤ calculate_email_similarity (norm seed) (norm o)) := by
      rcases h o (List.mem_cons_self _ _) with h1 | h1
      · exact fun hc => hc.1 h1
      · exact fun hc => h1 hc.2.2
    rw [pullGroup_cons_false hcond]
    exact ih proc (fun o' ho' => h o' (List.mem_cons_of_mem _ ho'))

theorem groupsGo_singletons (θ : ℚ) (norm : String → String) (all : List String)
    (hsim : ∀ e1 ∈ all, ∀ e2 ∈ all, e1 ≠ e2 →
      calculate_email_similarity (norm e1) (norm e2) < θ) :
    ∀ rest proc : List String, rest.Nodup → (∀ e ∈ rest, e ∈ all) →
      (∀ e ∈ rest, e ∉ proc) →
      groupsGo θ norm all rest proc = rest.map (fun e => [e]) := by
  intro rest
  induction rest with
  | nil => intro proc _ _ _; rfl
  | cons e rest' ih =>
    intro proc hnd hsub hproc
    rw [groupsGo, if_neg (hproc e (List.mem_cons_self _ _))]
    have hpull : pullGroup θ norm e all (e :: proc) = ([], e :: proc) := by
      apply pullGroup_none
      intro o ho
      by_cases heo : o = e
      · exact Or.inl heo
      · right
        intro hle
        have hlt := hsim e (hsub e (List.mem_cons_self _ _)) o ho (fun h => heo h.symm)
        exact absurd hle (not_le.2 hlt)
    rw [hpull]
    have hrec := ih (e :: proc) (List.nodup_cons.1 hnd).2
      (fun x hx => hsub x (List.mem_cons_of_mem _ hx))
      (by
        intro x hx
        simp only [List.mem_cons]
        push_neg
        exact ⟨fun hxe => (List.nodup_cons.1 hnd).1 (hxe ▸ hx), hproc x (List.mem_cons_of_mem _ hx)⟩)
    simp only at hrec ⊢
    rw [hrec]
    rfl

/-- C9 (amended): the deduplication pass is a fixed point on duplicate-free
inputs whose pairwise similarities (of normalised forms) all fall below the
threshold — every group is then a singleton and the list is returned
unchanged.  (In general a second run can merge further, see
`dedup_not_idempotent`.) -/
theorem dedup_fixed_point (θ : ℚ) (emails : List String)
    (hnd : emails.Nodup)
    (hsim : ∀ e1 ∈ emails, ∀ e2 ∈ emails, e1 ≠ e2 →
      calculate_email_similarity (normalize_email e1) (normalize_email e2) < θ) :
    remove_email_duplicates θ emails = emails := by
  unfold remove_email_duplicates email_groups
  rw [groupsGo_singletons θ normalize_email emails hsim emails [] hnd
    (fun e he => he) (by simp)]
  rw [List.map_map]
  have hbest : best_email ∘ (fun e => [e]) = id := by
    funext e
    simp [best_email, Function.comp]
  rw [hbest, List.map_id]

/-- Closed witness for `dedup_fixed_point`: two dissimilar addresses pass
through unchanged. -/
theorem dedup_fixed_point_witness :
    remove_email_duplicates (0.85 : ℚ) ["a@x.com", "b@y.com"]
      = ["a@x.com", "b@y.com"] := by
  apply dedup_fixed_point
  · decide
  · intro e1 h1 e2 h2 hne
    have hs1 : calculate_email_similarity (normalize_email ("a@x.com"))
        (normalize_email ("b@y.com")) = 0 := rfl
    have hs2 : calculate_email_similarity (normalize_email ("b@y.com"))
        (normalize_email ("a@x.com")) = 0 := rfl
    simp only [List.mem_cons, List.not_mem_nil, or_false] at h1 h2
    rcases h1 with h1 | h1 <;> rcases h2 with h2 | h2 <;> subst h1 <;> subst h2
    · exact absurd rfl hne
    · rw [hs1]; norm_num
    · rw [hs2]; norm_num
    · exact absurd rfl hne

/-! ## Credential pool & quota tracker (`YouTubeChannelScraper`)

State of the scraper as far as key selection and quota tracking are
concerned.  `time.time()` values are rationals supplied by the caller;
`datetime.now().date().isoformat()` is abstracted to a day index `ℕ`
supplied as `today`. -/

structure Scraper where
  api_keys : List String
  api_usage_count : List (String × ℕ)
  api_last_used : List (String × ℚ)
  api_errors : List (String × ℕ)
  daily_quota_usage : List (String × ℕ)
  min_api_cooldown : ℚ
  daily_quota_limit : ℕ
  last_quota_reset_day : ℕ

/-- `YouTubeChannelScraper.reset_daily_quota_usage`. -/
def reset_daily_quota_usage (s : Scraper) (today : ℕ) : Scraper :=
  if s.last_quota_reset_day ≠ today then
    { s with daily_quota_usage := s.api_keys.map (fun k => (k, 0)),
             last_quota_reset_day := today }
  else s

/-- The three selection criteria of `get_next_api_key` for one key:
recorded errors, quota-used ratio, total usage count. -/
def keyTriple (s : Scraper) (k : String) : ℕ × ℚ × ℕ :=
  (aget 0 s.api_errors k,
    ((aget 0 s.daily_quota_usage k : ℕ) : ℚ) / ((s.daily_quota_limit : ℕ) : ℚ),
    aget 0 s.api_usage_count k)

/-- The literal composite condition of the Python selection loop
(strictly better in the lexicographic order errors, ratio, usages). -/
def LexLt (a b : ℕ × ℚ × ℕ) : Prop :=
  a.1 < b.1 ∨ (a.1 = b.1 ∧ a.2.1 < b.2.1)
    ∨ (a.1 = b.1 ∧ a.2.1 = b.2.1 ∧ a.2.2 < b.2.2)

instance (a b : ℕ × ℚ × ℕ) : Decidable (LexLt a b) := by
  unfold LexLt
  infer_instance

/-- The `for key in available_keys` selection loop; the accumulator is
`None` while `min_errors` is still `float('inf')` (every key beats it). -/
def selGo (s : Scraper) : List String → Option (String × (ℕ × ℚ × ℕ)) →
    Option (String × (ℕ × ℚ × ℕ))
  | [], acc => acc
  | k :: ks, acc =>
    match acc with
    | none => selGo s ks (some (k, keyTriple s k))
    | some (bk, bt) =>
      if LexLt (keyTriple s k) bt then selGo s ks (some (k, keyTriple s k))
      else selGo s ks (some (bk, bt))

/-- The cooldown filter of `get_next_api_key`. -/
def availableKeys (s : Scraper) (t : ℚ) : List String :=
  s.api_keys.filter (fun k => decide (s.min_api_cooldown ≤ t - aget 0 s.api_last_used k))

/-- The post-selection bookkeeping (`api_usage_count[k] += 1`,
`api_last_used[k] = current_time`). -/
def markUsed (s : Scraper) (k : String) (t : ℚ) : Scraper :=
  { s with api_usage_count := aset s.api_usage_count k (aget 0 s.api_usage_count k + 1),
           api_last_used := aset s.api_last_used k t }

/-- `min([self.api_last_used.get(key, 0) for key in self.api_keys])`. -/
def minLastUsed (s : Scraper) : ℚ :=
  match s.api_keys with
  | [] => 0
  | k :: ks => ks.foldl (fun m k' => min m (aget 0 s.api_last_used k')) (aget 0 s.api_last_used k)

inductive GErr where
  | fuelOut
  | noKeys
deriving DecidableEq

/-- `YouTubeChannelScraper.get_next_api_key`: raise when the pool is empty,
reset the day ledger, filter by cooldown; when every key is cooling down,
sleep exactly until the earliest key clears and retry (the clock advances by
the slept amount), else pick the best key and mark it used.  The returned
rational is the total time slept.  `fuel` bounds the retry recursion (the
code recurses at most once per sleep). -/
def get_next_api_key : ℕ → Scraper → ℕ → ℚ → Except GErr (ℚ × String × Scraper)
  | 0, _, _, _ => Except.error GErr.fuelOut
  | fuel + 1, s₀, today, t =>
    if s₀.api_keys = [] then Except.error GErr.noKeys
    else
      if availableKeys (reset_daily_quota_usage s₀ today) t = [] then
        match get_next_api_key fuel (reset_daily_quota_usage s₀ today) today
            (t + max 0 (minLastUsed (reset_daily_quota_usage s₀ today)
              + (reset_daily_quota_usage s₀ today).min_api_cooldown - t)) with
        | Except.error e => Except.error e
        | Except.ok (w, key, s') =>
          Except.ok (max 0 (minLastUsed (reset_daily_quota_usage s₀ today)
            + (reset_daily_quota_usage s₀ today).min_api_cooldown - t) + w, key, s')
      else
        match selGo (reset_daily_quota_usage s₀ today)
            (availableKeys (reset_daily_quota_usage s₀ today) t) none with
        | some (bk, _) =>
          Except.ok (0, bk, markUsed (reset_daily_quota_usage s₀ today) bk t)
        | none =>
          Except.ok (0, (reset_daily_quota_usage s₀ today).api_keys.headD "",
            markUsed (reset_daily_quota_usage s₀ today)
              ((reset_daily_quota_usage s₀ today).api_keys.headD "") t)

theorem reset_api_keys (s : Scraper) (d : ℕ) :
    (reset_daily_quota_usage s d).api_keys = s.api_keys := by
  unfold reset_daily_quota_usage
  split <;> rfl

theorem reset_api_last_used (s : Scraper) (d : ℕ) :
    (reset_daily_quota_usage s d).api_last_used = s.api_last_used := by
  unfold reset_daily_quota_usage
  split <;> rfl

theorem reset_min_api_cooldown (s : Scraper) (d : ℕ) :
    (reset_daily_quota_usage s d).min_api_cooldown = s.min_api_cooldown := by
  unfold reset_daily_quota_usage
  split <;> rfl

theorem availableKeys_reset (s : Scraper) (d : ℕ) (t : ℚ) :
    availableKeys (reset_daily_quota_usage s d) t = availableKeys s t := by
  unfold availableKeys
  rw [reset_api_keys, reset_api_last_used, reset_min_api_cooldown]

theorem minLastUsed_reset (s : Scraper) (d : ℕ) :
    minLastUsed (reset_daily_quota_usage s d) = minLastUsed s := by
  unfold minLastUsed
  rw [reset_api_keys, reset_api_last_used]

/-! ## Daily quota ledger (`api_validator.py`, `get_used_quota`) -/

/-- One history entry of the validator's quota database: the parsed date of
its timestamp (`none` models a malformed timestamp, skipped by the
`except (ValueError, TypeError): continue`) and `units_used`. -/
structure QuotaEntry where
  timestamp : Option ℕ
  units_used : ℕ
deriving DecidableEq

/-- Body of the validator's `for entry in history` loop. -/
def quotaStep (today : ℕ) (acc : ℕ) (e : QuotaEntry) : ℕ :=
  match e.timestamp with
  | some d => if d = today then acc + e.units_used else acc
  | none => acc

/-- `YouTubeAPIValidator.get_used_quota`: sum the units of this key's
history entries whose date equals today. -/
def get_used_quota (db : List (String × List QuotaEntry)) (today : ℕ) (api_key : String) : ℕ :=
  match odLookup db api_key with
  | none => 0
  | some history => history.foldl (quotaStep today) 0

/-- The spec's words for the same quantity: the sum over exactly the entries
whose timestamp falls on the current date. -/
def specUsedToday (db : List (String × List QuotaEntry)) (today : ℕ) (api_key : String) : ℕ :=
  match odLookup db api_key with
  | none => 0
  | some history =>
    ((history.filter (fun e => e.timestamp = some today)).map QuotaEntry.units_used).sum

theorem usedQuota_foldl (today : ℕ) : ∀ (l : List QuotaEntry) (acc : ℕ),
    l.foldl (quotaStep today) acc
      = acc + ((l.filter (fun e => e.timestamp = some today)).map QuotaEntry.units_used).sum := by
  intro l
  induction l with
  | nil => intro acc; simp
  | cons e es ih =>
    intro acc
    rw [List.foldl_cons, List.filter_cons]
    cases hts : e.timestamp with
    | none =>
      simp [quotaStep, hts, ih]
    | some d =>
      by_cases hd : d = today
      · simp [quotaStep, hts, hd, ih]
        omega
      · simp [quotaStep, hts, hd, ih]

theorem aget_map_zero (l : List String) (k : String) :
    aget 0 (l.map (fun k => (k, 0))) k = 0 := by
  induction l with
  | nil => rfl
  | cons x xs ih =>
    by_cases hx : x = k <;> simp [aget, hx, ih]

/-- C6: after the observed date advances, the per-key daily counter is reset
to zero by `reset_daily_quota_usage`, and the validator's ledger-derived
"used today" figure counts exactly the entries dated today — usage recorded
on an earlier day contributes nothing. -/
theorem daily_quota_rollover :
    (∀ (s : Scraper) (today : ℕ) (k : String), s.last_quota_reset_day ≠ today →
      aget 0 (reset_daily_quota_usage s today).daily_quota_usage k = 0)
    ∧ (∀ (db : List (String × List QuotaEntry)) (today : ℕ) (k : String),
      get_used_quota db today k = specUsedToday db today k) := by
  constructor
  · intro s today k hday
    unfold reset_daily_quota_usage
    rw [if_pos hday]
    exact aget_map_zero s.api_keys k
  · intro db today k
    unfold get_used_quota specUsedToday
    cases h : odLookup db k with
    | none => rfl
    | some history =>
      show history.foldl (quotaStep today) 0
        = ((history.filter (fun e => e.timestamp = some today)).map QuotaEntry.units_used).sum
      rw [usedQuota_foldl today history 0, Nat.zero_add]

/-- Closed witness for `daily_quota_rollover`: 70 units recorded on day 5
disappear from the counter and from the ledger estimate on day 6. -/
theorem daily_quota_rollover_witness :
    aget 0 (reset_daily_quota_usage
        { api_keys := ["kk"], api_usage_count := [], api_last_used := [],
          api_errors := [], daily_quota_usage := [("kk", 70)],
          min_api_cooldown := 2, daily_quota_limit := 10000,
          last_quota_reset_day := 5 } 6).daily_quota_usage "kk" = 0
    ∧ get_used_quota [("kk", [⟨some 5, 70⟩, ⟨some 6, 30⟩, ⟨none, 9⟩])] 6 "kk"
        = specUsedToday [("kk", [⟨some 5, 70⟩, ⟨some 6, 30⟩, ⟨none, 9⟩])] 6 "kk"
    ∧ get_used_quota [("kk", [⟨some 5, 70⟩, ⟨some 6, 30⟩, ⟨none, 9⟩])] 6 "kk" = 30 :=
  ⟨daily_quota_rollover.1 _ 6 "kk" (by decide),
    daily_quota_rollover.2 [("kk", [⟨some 5, 70⟩, ⟨some 6, 30⟩, ⟨none, 9⟩])] 6 "kk",
    by decide⟩

theorem LexLt_trans {a b c : ℕ × ℚ × ℕ} (h1 : LexLt a b) (h2 : LexLt b c) : LexLt a c := by
  unfold LexLt at h1 h2 ⊢
  rcases h1 with h1 | ⟨e1, h1⟩ | ⟨e1, f1, h1⟩ <;>
    rcases h2 with h2 | ⟨e2, h2⟩ | ⟨e2, f2, h2⟩
  · exact Or.inl (Nat.lt_trans h1 h2)
  · exact Or.inl (e2 ▸ h1)
  · exact Or.inl (e2 ▸ h1)
  · exact Or.inl (e1 ▸ h2)
  · exact Or.inr (Or.inl ⟨e1.trans e2, lt_trans h1 h2⟩)
  · exact Or.inr (Or.inl ⟨e1.trans e2, f2 ▸ h1⟩)
  · exact Or.inl (e1 ▸ h2)
  · exact Or.inr (Or.inl ⟨e1.trans e2, f1 ▸ h2⟩)
  · exact Or.inr (Or.inr ⟨e1.trans e2, f1.trans f2, Nat.lt_trans h1 h2⟩)

theorem LexLt_irrefl (a : ℕ × ℚ × ℕ) : ¬ LexLt a a := by
  unfold LexLt
  push_neg
  exact ⟨le_refl _, fun _ => le_refl _, fun _ _ => le_refl _⟩

theorem LexLt_asymm {a b : ℕ × ℚ × ℕ} (h : LexLt a b) : ¬ LexLt b a :=
  fun h' => LexLt_irrefl a (LexLt_trans h h')

theorem LexLt_eq_of_not {a b : ℕ × ℚ × ℕ} (h : ¬ LexLt a b) (h' : ¬ LexLt b a) : a = b := by
  unfold LexLt at h h'
  push_neg at h h'
  obtain ⟨h1, h2, h3⟩ := h
  obtain ⟨h1', h2', h3'⟩ := h'
  have e1 : a.1 = b.1 := le_antisymm h1' h1
  have e2 : a.2.1 = b.2.1 := le_antisymm (h2' e1.symm) (h2 e1)
  have e3 : a.2.2 = b.2.2 := le_antisymm (h3' e1.symm e2.symm) (h3 e1 e2)
  exact Prod.ext e1 (Prod.ext e2 e3)

theorem LexLt_of_lt_of_not {a b c : ℕ × ℚ × ℕ} (h1 : LexLt a b) (h2 : ¬ LexLt c b) :
    LexLt a c := by
  by_cases h3 : LexLt b c
  · exact LexLt_trans h1 h3
  · exact LexLt_eq_of_not h3 h2 ▸ h1

/-- `r` is the first element of `l` whose triple is lexicographically
minimal: everything before it is strictly greater, nothing after it is
strictly smaller. -/
def IsFirstMin (f : String → ℕ × ℚ × ℕ) (l : List String) (r : String) : Prop :=
  ∃ l₁ l₂, l = l₁ ++ r :: l₂
    ∧ (∀ x ∈ l₁, LexLt (f r) (f x))
    ∧ (∀ x ∈ l₂, ¬ LexLt (f x) (f r))

theorem selGo_acc_spec (s : Scraper) : ∀ (l : List String) (b : String),
    ∃ r, selGo s l (some (b, keyTriple s b)) = some (r, keyTriple s r)
      ∧ ((r = b ∧ ∀ x ∈ l, ¬ LexLt (keyTriple s x) (keyTriple s b))
        ∨ (LexLt (keyTriple s r) (keyTriple s b)
            ∧ ∃ l₁ l₂, l = l₁ ++ r :: l₂
              ∧ (∀ x ∈ l₁, LexLt (keyTriple s r) (keyTriple s x))
              ∧ (∀ x ∈ l₂, ¬ LexLt (keyTriple s x) (keyTriple s r)))) := by
  intro l
  induction l with
  | nil =>
    intro b
    exact ⟨b, rfl, Or.inl ⟨rfl, by simp⟩⟩
  | cons x xs ih =>
    intro b
    by_cases hx : LexLt (keyTriple s x) (keyTriple s b)
    · obtain ⟨r, hsel, hcase⟩ := ih x
      refine ⟨r, ?_, ?_⟩
      · rw [selGo, if_pos hx]
        exact hsel
      · right
        rcases hcase with ⟨hrx, hall⟩ | ⟨hlt, l₁, l₂, heq, h₁, h₂⟩
        · subst hrx
          exact ⟨hx, [], xs, rfl, by simp, hall⟩
        · refine ⟨LexLt_trans hlt hx, x :: l₁, l₂, by rw [heq]; rfl, ?_, h₂⟩
          intro y hy
          rcases List.mem_cons.1 hy with hy | hy
          · exact hy ▸ hlt
          · exact h₁ y hy
    · obtain ⟨r, hsel, hcase⟩ := ih b
      refine ⟨r, ?_, ?_⟩
      · rw [selGo, if_neg hx]
        exact hsel
      · rcases hcase with ⟨hrb, hall⟩ | ⟨hlt, l₁, l₂, heq, h₁, h₂⟩
        · left
          refine ⟨hrb, ?_⟩
          intro y hy
          rcases List.mem_cons.1 hy with hy | hy
          · exact hy ▸ hx
          · exact hall y hy
        · right
          refine ⟨hlt, x :: l₁, l₂, by rw [heq]; rfl, ?_, h₂⟩
          intro y hy
          rcases List.mem_cons.1 hy with hy | hy
          · exact hy ▸ LexLt_of_lt_of_not hlt hx
          · exact h₁ y hy

theorem selGo_none_spec (s : Scraper) (l : List String) (hl : l ≠ []) :
    ∃ r, selGo s l none = some (r, keyTriple s r) ∧ IsFirstMin (keyTriple s) l r := by
  cases l with
  | nil => exact absurd rfl hl
  | cons a rest =>
    obtain ⟨r, hsel, hcase⟩ := selGo_acc_spec s rest a
    refine ⟨r, ?_, ?_⟩
    · rw [selGo]
      exact hsel
    · rcases hcase with ⟨hra, hall⟩ | ⟨hlt, l₁, l₂, heq, h₁, h₂⟩
      · subst hra
        exact ⟨[], rest, rfl, by simp, hall⟩
      · refine ⟨a :: l₁, l₂, by rw [heq]; rfl, ?_, h₂⟩
        intro y hy
        rcases List.mem_cons.1 hy with hy | hy
        · exact hy ▸ hlt
        · exact h₁ y hy

theorem mem_availableKeys {s : Scraper} {t : ℚ} {k : String} :
    k ∈ availableKeys s t
      ↔ k ∈ s.api_keys ∧ s.min_api_cooldown ≤ t - aget 0 s.api_last_used k := by
  unfold availableKeys
  simp [List.mem_filter]

theorem availableKeys_eq_nil {s : Scraper} {t : ℚ}
    (h : availableKeys s t = []) (k : String) (hk : k ∈ s.api_keys) :
    ¬ (s.min_api_cooldown ≤ t - aget 0 s.api_last_used k) := by
  intro hle
  have : k ∈ availableKeys s t := mem_availableKeys.2 ⟨hk, hle⟩
  rw [h] at this
  cases this

theorem foldl_min_le_init : ∀ (l : List ℚ) (a : ℚ), l.foldl min a ≤ a := by
  intro l
  induction l with
  | nil => intro a; exact le_refl a
  | cons x xs ih => intro a; exact le_trans (ih (min a x)) (min_le_left a x)

theorem foldl_min_le_mem : ∀ (l : List ℚ) (a x : ℚ), x ∈ l → l.foldl min a ≤ x := by
  intro l
  induction l with
  | nil => intro a x hx; cases hx
  | cons y ys ih =>
    intro a x hx
    rcases List.mem_cons.1 hx with hx | hx
    · subst hx
      exact le_trans (foldl_min_le_init ys (min a x)) (min_le_right a x)
    · exact ih (min a y) x hx

theorem foldl_min_attained : ∀ (l : List ℚ) (a : ℚ), l.foldl min a = a ∨ l.foldl min a ∈ l := by
  intro l
  induction l with
  | nil => intro a; exact Or.inl rfl
  | cons x xs ih =>
    intro a
    rcases ih (min a x) with he | hm
    · rcases min_choice a x with hc | hc
      · exact Or.inl (by rw [List.foldl_cons, he, hc])
      · exact Or.inr (by rw [List.foldl_cons, he, hc]; exact List.mem_cons_self _ _)
    · exact Or.inr (List.mem_cons_of_mem _ (by rw [List.foldl_cons]; exact hm))

theorem foldl_min_map (f : String → ℚ) : ∀ (l : List String) (a : ℚ),
    l.foldl (fun m k => min m (f k)) a = (l.map f).foldl min a := by
  intro l
  induction l with
  | nil => intro a; rfl
  | cons x xs ih => intro a; rw [List.map_cons, List.foldl_cons, List.foldl_cons, ih]

theorem minLastUsed_le {s : Scraper} {k' : String} (h : k' ∈ s.api_keys) :
    minLastUsed s ≤ aget 0 s.api_last_used k' := by
  unfold minLastUsed
  cases hk : s.api_keys with
  | nil => rw [hk] at h; cases h
  | cons k ks =>
    rw [hk] at h
    change List.foldl (fun m k' => min m (aget 0 s.api_last_used k'))
      (aget 0 s.api_last_used k) ks ≤ _
    rw [foldl_min_map]
    rcases List.mem_cons.1 h with h | h
    · subst h
      exact foldl_min_le_init _ _
    · exact foldl_min_le_mem _ _ _ (List.mem_map_of_mem _ h)

theorem minLastUsed_attained {s : Scraper} (h : s.api_keys ≠ []) :
    ∃ k ∈ s.api_keys, aget 0 s.api_last_used k = minLastUsed s := by
  unfold minLastUsed
  cases hk : s.api_keys with
  | nil => exact absurd hk h
  | cons k ks =>
    change ∃ x ∈ k :: ks, aget 0 s.api_last_used x
      = List.foldl (fun m k' => min m (aget 0 s.api_last_used k')) (aget 0 s.api_last_used k) ks
    rw [foldl_min_map]
    rcases foldl_min_attained (ks.map (aget 0 s.api_last_used)) (aget 0 s.api_last_used k)
      with he | hm
    · exact ⟨k, List.mem_cons_self _ _, he.symm⟩
    · rcases List.mem_map.1 hm with ⟨k', hk', he⟩
      exact ⟨k', List.mem_cons_of_mem _ hk', he⟩

theorem gna_ok_props : ∀ (fuel : ℕ) (s : Scraper) (today : ℕ) (t w : ℚ) (k : String)
    (s' : Scraper), get_next_api_key fuel s today t = Except.ok (w, k, s') →
      0 ≤ w
      ∧ s.min_api_cooldown ≤ (t + w) - aget 0 s.api_last_used k
      ∧ k ∈ s.api_keys := by
  intro fuel
  induction fuel with
  | zero =>
    intro s today t w k s' h
    simp [get_next_api_key] at h
  | succ fuel ih =>
    intro s today t w k s' h
    rw [get_next_api_key] at h
    by_cases hkeys : s.api_keys = []
    · rw [if_pos hkeys] at h; cases h
    · rw [if_neg hkeys] at h
      by_cases havail : availableKeys (reset_daily_quota_usage s today) t = []
      · rw [if_pos havail] at h
        cases hrec : get_next_api_key fuel (reset_daily_quota_usage s today) today
            (t + max 0 (minLastUsed (reset_daily_quota_usage s today)
              + (reset_daily_quota_usage s today).min_api_cooldown - t)) with
        | error e => rw [hrec] at h; cases h
        | ok res =>
          obtain ⟨w', k', s''⟩ := res
          rw [hrec] at h
          injection h with h
          injection h with hw h
          injection h with hk hs
          subst hw hk hs
          obtain ⟨ih0, ih1, ih2⟩ := ih _ _ _ _ _ _ hrec
          rw [reset_min_api_cooldown, reset_api_last_used] at ih1
          rw [reset_api_keys] at ih2
          rw [reset_min_api_cooldown]
          have hs0 : (0 : ℚ) ≤ max 0 (minLastUsed (reset_daily_quota_usage s today)
              + s.min_api_cooldown - t) := le_max_left _ _
          exact ⟨by linarith, by linarith, ih2⟩
      · rw [if_neg havail] at h
        obtain ⟨r, hsel, hmin⟩ := selGo_none_spec (reset_daily_quota_usage s today) _ havail
        rw [hsel] at h
        injection h with h
        injection h with hw h
        injection h with hk hs
        subst hw hk hs
        have hmem : r ∈ availableKeys (reset_daily_quota_usage s today) t := by
          obtain ⟨l₁, l₂, heq, _, _⟩ := hmin
          rw [heq]
          exact List.mem_append_right _ (List.mem_cons_self _ _)
        rw [availableKeys_reset] at hmem
        obtain ⟨hmem1, hmem2⟩ := mem_availableKeys.1 hmem
        exact ⟨le_refl 0, by linarith, hmem1⟩

theorem gna_wait_bound : ∀ (fuel : ℕ) (s : Scraper) (today : ℕ) (t w : ℚ) (k : String)
    (s' : Scraper), get_next_api_key fuel s today t = Except.ok (w, k, s') →
    ∀ k' ∈ s.api_keys, w ≤ max 0 (aget 0 s.api_last_used k' + s.min_api_cooldown - t) := by
  intro fuel
  induction fuel with
  | zero =>
    intro s today t w k s' h
    simp [get_next_api_key] at h
  | succ fuel ih =>
    intro s today t w k s' h k' hk'
    rw [get_next_api_key] at h
    by_cases hkeys : s.api_keys = []
    · rw [if_pos hkeys] at h; cases h
    · rw [if_neg hkeys] at h
      by_cases havail : availableKeys (reset_daily_quota_usage s today) t = []
      · rw [if_pos havail] at h
        cases hrec : get_next_api_key fuel (reset_daily_quota_usage s today) today
            (t + max 0 (minLastUsed (reset_daily_quota_usage s today)
              + (reset_daily_quota_usage s today).min_api_cooldown - t)) with
        | error e => rw [hrec] at h; cases h
        | ok res =>
          obtain ⟨w', k2, s''⟩ := res
          rw [hrec] at h
          injection h with h
          injection h with hw h
          injection h with hk hs
          subst hw hk hs
          have hkeys₁ : (reset_daily_quota_usage s today).api_keys ≠ [] := by
            rw [reset_api_keys]; exact hkeys
          obtain ⟨kmin, hkmin_mem, hkmin_eq⟩ := minLastUsed_attained hkeys₁
          have hnotav := availableKeys_eq_nil havail kmin hkmin_mem
          rw [reset_min_api_cooldown, reset_api_last_used] at hnotav
          rw [reset_api_last_used] at hkmin_eq
          push_neg at hnotav
          have hpos : 0 < minLastUsed (reset_daily_quota_usage s today)
              + s.min_api_cooldown - t := by
            rw [← hkmin_eq]
            linarith
          rw [reset_min_api_cooldown]
          have hsleep : max 0 (minLastUsed (reset_daily_quota_usage s today)
              + s.min_api_cooldown - t)
              = minLastUsed (reset_daily_quota_usage s today) + s.min_api_cooldown - t :=
            max_eq_right hpos.le
          have hb := ih _ _ _ _ _ _ hrec kmin hkmin_mem
          rw [reset_min_api_cooldown, reset_api_last_used] at hb
          rw [hkmin_eq, hsleep] at hb
          have hzero : minLastUsed (reset_daily_quota_usage s today) + s.min_api_cooldown
              - (t + (minLastUsed (reset_daily_quota_usage s today)
                + s.min_api_cooldown - t)) = 0 := by ring
          rw [hzero, max_self] at hb
          have hw'0 : 0 ≤ w' := (gna_ok_props _ _ _ _ _ _ _ hrec).1
          have hmle : minLastUsed (reset_daily_quota_usage s today)
              ≤ aget 0 s.api_last_used k' := by
            have hle := @minLastUsed_le (reset_daily_quota_usage s today) k'
              (by rw [reset_api_keys]; exact hk')
            rwa [reset_api_last_used] at hle
          have hmr := le_max_right (0 : ℚ)
            (aget 0 s.api_last_used k' + s.min_api_cooldown - t)
          rw [hsleep]
          linarith
      · rw [if_neg havail] at h
        obtain ⟨r, hsel, hmin⟩ := selGo_none_spec (reset_daily_quota_usage s today) _ havail
        rw [hsel] at h
        injection h with h
        injection h with hw h
        subst hw
        exact le_max_left _ _

theorem gna_exists : ∀ (f : ℕ) (s : Scraper) (today : ℕ) (t : ℚ), s.api_keys ≠ [] →
    ∃ w k s', get_next_api_key (f + 2) s today t = Except.ok (w, k, s') := by
  intro f s today t hkeys
  rw [get_next_api_key, if_neg hkeys]
  by_cases havail : availableKeys (reset_daily_quota_usage s today) t = []
  · rw [if_pos havail]
    have hkeys₁ : (reset_daily_quota_usage s today).api_keys ≠ [] := by
      rw [reset_api_keys]; exact hkeys
    obtain ⟨kmin, hkmin_mem, hkmin_eq⟩ := minLastUsed_attained hkeys₁
    have hnotav := availableKeys_eq_nil havail kmin hkmin_mem
    push_neg at hnotav
    have hpos : 0 < minLastUsed (reset_daily_quota_usage s today)
        + (reset_daily_quota_usage s today).min_api_cooldown - t := by
      rw [← hkmin_eq]
      linarith
    have hsleep : max 0 (minLastUsed (reset_daily_quota_usage s today)
        + (reset_daily_quota_usage s today).min_api_cooldown - t)
        = minLastUsed (reset_daily_quota_usage s today)
          + (reset_daily_quota_usage s today).min_api_cooldown - t :=
      max_eq_right hpos.le
    have hmem2 : kmin ∈ availableKeys (reset_daily_quota_usage s today)
        (t + max 0 (minLastUsed (reset_daily_quota_usage s today)
          + (reset_daily_quota_usage s today).min_api_cooldown - t)) := by
      apply mem_availableKeys.2
      refine ⟨hkmin_mem, ?_⟩
      rw [hsleep, hkmin_eq]
      linarith
    rw [get_next_api_key, if_neg hkeys₁]
    have hne : availableKeys (reset_daily_quota_usage (reset_daily_quota_usage s today) today)
        (t + max 0 (minLastUsed (reset_daily_quota_usage s today)
          + (reset_daily_quota_usage s today).min_api_cooldown - t)) ≠ [] := by
      rw [availableKeys_reset]
      exact List.ne_nil_of_mem hmem2
    rw [if_neg hne]
    obtain ⟨r, hsel, _⟩ := selGo_none_spec _ _ hne
    rw [hsel]
    exact ⟨_, _, _, rfl⟩
  · rw [if_neg havail]
    obtain ⟨r, hsel, _⟩ := selGo_none_spec _ _ havail
    rw [hsel]
    exact ⟨_, _, _, rfl⟩

/-- C1: a key returned by `get_next_api_key` always has its cooldown window
elapsed at selection time (call time plus total blocked time); the blocked
time never exceeds any pool key's remaining cooldown wait — in particular
not the minimum remaining wait; and with a nonempty pool the call returns a
key (two recursion steps suffice). -/
theorem cooldown_respected_and_minimal_wait :
    (∀ (fuel : ℕ) (s : Scraper) (today : ℕ) (t w : ℚ) (k : String) (s' : Scraper),
      get_next_api_key fuel s today t = Except.ok (w, k, s') →
        s.min_api_cooldown ≤ (t + w) - aget 0 s.api_last_used k)
    ∧ (∀ (fuel : ℕ) (s : Scraper) (today : ℕ) (t w : ℚ) (k : String) (s' : Scraper),
      get_next_api_key fuel s today t = Except.ok (w, k, s') →
        ∀ k' ∈ s.api_keys, w ≤ max 0 (aget 0 s.api_last_used k' + s.min_api_cooldown - t))
    ∧ (∀ (f : ℕ) (s : Scraper) (today : ℕ) (t : ℚ), s.api_keys ≠ [] →
      ∃ w k s', get_next_api_key (f + 2) s today t = Except.ok (w, k, s')) :=
  ⟨fun fuel s today t w k s' h => (gna_ok_props fuel s today t w k s' h).2.1,
    gna_wait_bound, gna_exists⟩

set_option maxHeartbeats 1000000 in
/-- Closed witness for `cooldown_respected_and_minimal_wait`: two keys last
used at times 10 and 11, cooldown 2, call at time 11 — selection succeeds,
the returned key's window has elapsed, and the wait is at most key `k1`'s
remaining second. -/
theorem cooldown_witness :
    ∃ w k s', get_next_api_key 2
        { api_keys := ["k1", "k2"], api_usage_count := [],
          api_last_used := [("k1", 10), ("k2", 11)], api_errors := [],
          daily_quota_usage := [], min_api_cooldown := 2,
          daily_quota_limit := 10000, last_quota_reset_day := 0 } 0 11
        = Except.ok (w, k, s')
      ∧ (2 : ℚ) ≤ (11 + w)
          - aget 0 [("k1", (10 : ℚ)), ("k2", 11)] k
      ∧ w ≤ max 0 (aget 0 [("k1", (10 : ℚ)), ("k2", 11)] "k1" + 2 - 11) := by
  obtain ⟨w, k, s', heq⟩ := cooldown_respected_and_minimal_wait.2.2 0
    { api_keys := ["k1", "k2"], api_usage_count := [],
      api_last_used := [("k1", 10), ("k2", 11)], api_errors := [],
      daily_quota_usage := [], min_api_cooldown := 2,
      daily_quota_limit := 10000, last_quota_reset_day := 0 } 0 11 (by decide)
  rw [Nat.zero_add] at heq
  have h1 := cooldown_respected_and_minimal_wait.1 2
    { api_keys := ["k1", "k2"], api_usage_count := [],
      api_last_used := [("k1", 10), ("k2", 11)], api_errors := [],
      daily_quota_usage := [], min_api_cooldown := 2,
      daily_quota_limit := 10000, last_quota_reset_day := 0 } 0 11 w k s' heq
  have h2 := cooldown_respected_and_minimal_wait.2.1 2
    { api_keys := ["k1", "k2"], api_usage_count := [],
      api_last_used := [("k1", 10), ("k2", 11)], api_errors := [],
      daily_quota_usage := [], min_api_cooldown := 2,
      daily_quota_limit := 10000, last_quota_reset_day := 0 } 0 11 w k s' heq
      "k1" (by decide)
  exact ⟨w, k, s', heq, h1, h2⟩

/-- C2: when keys are available after the cooldown filter, the call does not
block and returns the first key (in registration order) whose triple
(recorded errors, quota-used ratio, total uses) is lexicographically
minimal — everything earlier in the filtered list is strictly worse,
nothing later is strictly better — and marks exactly that key used. -/
theorem best_key_selection (fuel : ℕ) (s : Scraper) (today : ℕ) (t : ℚ)
    (havail : availableKeys (reset_daily_quota_usage s today) t ≠ []) :
    ∃ r, get_next_api_key (fuel + 1) s today t
        = Except.ok (0, r, markUsed (reset_daily_quota_usage s today) r t)
      ∧ IsFirstMin (keyTriple (reset_daily_quota_usage s today))
          (availableKeys (reset_daily_quota_usage s today) t) r := by
  have hkeys : s.api_keys ≠ [] := by
    intro hk
    apply havail
    unfold availableKeys
    rw [reset_api_keys, hk]
    rfl
  rw [get_next_api_key, if_neg hkeys, if_neg havail]
  obtain ⟨r, hsel, hmin⟩ := selGo_none_spec _ _ havail
  rw [hsel]
  exact ⟨r, rfl, hmin⟩

/-- Concrete two-key pool exercising the selection path: no key has ever
been used, so both clear the (zero) cooldown at time 5. -/
def selW : Scraper :=
  { api_keys := ["a", "b"], api_usage_count := [],
    api_last_used := [], api_errors := [("a", 1)],
    daily_quota_usage := [], min_api_cooldown := 0,
    daily_quota_limit := 10000, last_quota_reset_day := 0 }

/-- Closed witness for `best_key_selection`: on the concrete pool `selW`
the cooldown filter keeps both keys, the call returns without blocking,
and the returned key is the first lexicographic minimum of the filter. -/
theorem best_key_selection_witness :
    availableKeys (reset_daily_quota_usage selW 0) 5 ≠ []
    ∧ ∃ r, get_next_api_key 1 selW 0 5
        = Except.ok (0, r, markUsed (reset_daily_quota_usage selW 0) r 5)
      ∧ IsFirstMin (keyTriple (reset_daily_quota_usage selW 0))
          (availableKeys (reset_daily_quota_usage selW 0) 5) r := by
  have hres : reset_daily_quota_usage selW 0 = selW := rfl
  have hmem : "a" ∈ availableKeys selW 5 := by
    apply mem_availableKeys.2
    constructor
    · simp [selW]
    · show (0 : ℚ) ≤ 5 - 0
      norm_num
  have hav : availableKeys (reset_daily_quota_usage selW 0) 5 ≠ [] := by
    rw [hres]
    exact List.ne_nil_of_mem hmem
  exact ⟨hav, best_key_selection 0 selW 0 5 hav⟩

/-- `self.api_errors[api_key] = self.api_errors.get(api_key, 0) + 1`. -/
def bumpError (s : Scraper) (k : String) : Scraper :=
  { s with api_errors := aset s.api_errors k (aget 0 s.api_errors k + 1) }

/-- `self.api_keys.remove(api_key)` (removes the first occurrence). -/
def removeKey (s : Scraper) (k : String) : Scraper :=
  { s with api_keys := lerase s.api_keys k }

/-- Outcome of one `build('youtube', ...)` call as observed by the handlers
of `create_youtube_service`: success, an `HttpError` carrying its status
code and the two reason substrings the code tests (`"quota"` in the reason
text, `"accessNotConfigured"` in the reason text), or any other exception. -/
inductive BOut where
  | success
  | httpError (code : ℕ) (quotaInReason accessNotConfigured : Bool)
deriving DecidableEq

/-- Observable events of `create_youtube_service`: a `build` attempt with a
given key, a `time.sleep` of a given duration, a `self.api_keys.remove`. -/
inductive Ev where
  | attempt (k : String)
  | slept (d : ℚ)
  | removed (k : String)
deriving DecidableEq

/-- Terminal failures of `create_youtube_service`.  `allQuota`, `noWorking`
and `allInvalid` are the three `ValueError`s raised when the pool empties;
`retriesExceeded` is the post-loop `Exception`; `raised` is the re-raise in
the final `HttpError` branch; `noKeys` is the `ValueError` of
`get_next_api_key` on an empty pool.  `fuelOut`, `selFuel` and `oracleOut`
are model artifacts (recursion depth, selector depth, outcome stream). -/
inductive CErr where
  | fuelOut
  | selFuel
  | noKeys
  | allQuota
  | noWorking
  | allInvalid
  | retriesExceeded
  | raised (code : ℕ)
  | oracleOut
deriving DecidableEq

/-- Control position inside `create_youtube_service`: about to call
`get_next_api_key`, or inside the `while retry_count < max_retries` loop
holding the current key and the current `retry_count`. -/
inductive CPhase where
  | select
  | loop (k : String) (rc : ℕ)
deriving DecidableEq

/-- One recursion-counted transcript of `create_youtube_service`
(`src/youtube_scraper.py` 702-784).  Every recursive `return
self.create_youtube_service()` and every loop iteration costs one unit of
`fuel`; `selFuel` bounds the sleep recursion inside `get_next_api_key`.
`outs` feeds one `BOut` per `build` attempt, `jits` one `random.uniform(0,1)`
sample per computed backoff delay.  Returns the event trace together with
either the terminal error or `(key, state, clock, remaining streams)` on
success.  Branches mirror the Python `elif` chain in source order: quota in
reason, 403 (accessNotConfigured removes, otherwise backoff), 429 (backoff,
rotate once `retry_count >= 2`), `>= 500` backoff, 400 removes, otherwise
re-raise after `max_retries` and back off before that. -/
def cysGo : ℕ → CPhase → ℕ → Scraper → ℕ → ℚ → List BOut → List ℚ →
    List Ev × Except CErr (String × Scraper × ℚ × List BOut × List ℚ)
  | 0, _, _, _, _, _, _, _ => ([], Except.error CErr.fuelOut)
  | fuel + 1, CPhase.select, selFuel, s, today, t, outs, jits =>
    match get_next_api_key selFuel s today t with
    | Except.error GErr.noKeys => ([], Except.error CErr.noKeys)
    | Except.error GErr.fuelOut => ([], Except.error CErr.selFuel)
    | Except.ok (w, k, s₁) =>
      cysGo fuel (CPhase.loop k 0) selFuel s₁ today (t + w) outs jits
  | fuel + 1, CPhase.loop k rc, selFuel, s, today, t, outs, jits =>
    if rc < 3 then
      match outs with
      | [] => ([Ev.attempt k], Except.error CErr.oracleOut)
      | BOut.success :: rest => ([Ev.attempt k], Except.ok (k, s, t, rest, jits))
      | BOut.httpError code quota acnc :: rest =>
        let sE := bumpError s k
        if quota then
          let sR := removeKey sE k
          if sR.api_keys = [] then
            ([Ev.attempt k, Ev.removed k], Except.error CErr.allQuota)
          else
            let r := cysGo fuel CPhase.select selFuel sR today t rest jits
            (Ev.attempt k :: Ev.removed k :: r.1, r.2)
        else if code = 403 then
          if acnc then
            let sR := removeKey sE k
            if sR.api_keys = [] then
              ([Ev.attempt k, Ev.removed k], Except.error CErr.noWorking)
            else
              let r := cysGo fuel CPhase.select selFuel sR today t rest jits
              (Ev.attempt k :: Ev.removed k :: r.1, r.2)
          else
            match jits with
            | [] => ([Ev.attempt k], Except.error CErr.oracleOut)
            | j :: jrest =>
              let d : ℚ := 1 * 2 ^ (rc + 1) + j
              let r := cysGo fuel (CPhase.loop k (rc + 1)) selFuel sE today
                (t + d) rest jrest
              (Ev.attempt k :: Ev.slept d :: r.1, r.2)
        else if code = 429 then
          match jits with
          | [] => ([Ev.attempt k], Except.error CErr.oracleOut)
          | j :: jrest =>
            let d : ℚ := 1 * 2 ^ (rc + 1) + j
            if 2 ≤ rc + 1 then
              let r := cysGo fuel CPhase.select selFuel sE today (t + d) rest jrest
              (Ev.attempt k :: Ev.slept d :: r.1, r.2)
            else
              let r := cysGo fuel (CPhase.loop k (rc + 1)) selFuel sE today
                (t + d) rest jrest
              (Ev.attempt k :: Ev.slept d :: r.1, r.2)
        else if 500 ≤ code then
          match jits with
          | [] => ([Ev.attempt k], Except.error CErr.oracleOut)
          | j :: jrest =>
            let d : ℚ := 1 * 2 ^ (rc + 1) + j
            let r := cysGo fuel (CPhase.loop k (rc + 1)) selFuel sE today
              (t + d) rest jrest
            (Ev.attempt k :: Ev.slept d :: r.1, r.2)
        else if code = 400 then
          let sR := removeKey sE k
          if sR.api_keys = [] then
            ([Ev.attempt k, Ev.removed k], Except.error CErr.allInvalid)
          else
            let r := cysGo fuel CPhase.select selFuel sR today t rest jits
            (Ev.attempt k :: Ev.removed k :: r.1, r.2)
        else
          if 3 ≤ rc + 1 then
            ([Ev.attempt k], Except.error (CErr.raised code))
          else
            match jits with
            | [] => ([Ev.attempt k], Except.error CErr.oracleOut)
            | j :: jrest =>
              let d : ℚ := 1 * 2 ^ (rc + 1) + j
              let r := cysGo fuel (CPhase.loop k (rc + 1)) selFuel sE today
                (t + d) rest jrest
              (Ev.attempt k :: Ev.slept d :: r.1, r.2)
    else ([], Except.error CErr.retriesExceeded)

/-- `YouTubeChannelScraper.create_youtube_service`: start in the selection
phase with `retry_count` not yet allocated. -/
def create_youtube_service (fuel selFuel : ℕ) (s : Scraper) (today : ℕ)
    (t : ℚ) (outs : List BOut) (jits : List ℚ) :
    List Ev × Except CErr (String × Scraper × ℚ × List BOut × List ℚ) :=
  cysGo fuel CPhase.select selFuel s today t outs jits

/-- Outcome of the probe request in `YouTubeAPIValidator.validate_api_key`:
success, an `HttpError` with status code and whether `"quota"` occurs in the
reason text, or any other exception. -/
inductive VOut where
  | success
  | httpError (code : ℕ) (quotaInReason : Bool)
  | exception
deriving DecidableEq

/-- The classification string returned by `validate_api_key` (`"canceled"`,
`"valid"`, `"quota_exceeded"`, `"invalid"`, `"error"`). -/
inductive VRes where
  | canceled
  | valid
  | quotaExceeded
  | invalid
  | errorOther
deriving DecidableEq

/-- `YouTubeAPIValidator.validate_api_key` (`src/api_validator.py`
478-667), recursion counted by `fuel` (`none` = depth or outcome stream
exhausted, a model artifact).  Returns `(number of probe requests made,
sleeps performed in order, classification, remaining outcomes)`.  Both the
429 and the `>= 500` branches `time.sleep(2.0)` and recurse on the same
key; quota in the reason returns `quota_exceeded`; 400 and 403 return
`invalid` at once; any other code — and any non-`HttpError` exception —
returns `error`. -/
def validate_api_key : ℕ → Bool → List VOut → Option (ℕ × List ℚ × VRes × List VOut)
  | 0, _, _ => none
  | _ + 1, true, outs => some (0, [], VRes.canceled, outs)
  | fuel + 1, false, outs =>
    match outs with
    | [] => none
    | VOut.success :: rest => some (1, [], VRes.valid, rest)
    | VOut.exception :: rest => some (1, [], VRes.errorOther, rest)
    | VOut.httpError code quota :: rest =>
      if quota then some (1, [], VRes.quotaExceeded, rest)
      else if code = 400 ∨ code = 403 then some (1, [], VRes.invalid, rest)
      else if code = 429 then
        match validate_api_key fuel false rest with
        | none => none
        | some (n, sl, r, left) => some (n + 1, 2 :: sl, r, left)
      else if 500 ≤ code then
        match validate_api_key fuel false rest with
        | none => none
        | some (n, sl, r, left) => some (n + 1, 2 :: sl, r, left)
      else some (1, [], VRes.errorOther, rest)

theorem bumpError_api_keys (s : Scraper) (k : String) :
    (bumpError s k).api_keys = s.api_keys := rfl

theorem removeKey_api_keys (s : Scraper) (k : String) :
    (removeKey s k).api_keys = lerase s.api_keys k := rfl

theorem markUsed_api_keys (s : Scraper) (k : String) (t : ℚ) :
    (markUsed s k t).api_keys = s.api_keys := rfl

theorem not_mem_lerase {l : List String} {x k : String} (hx : x ∉ l) :
    x ∉ lerase l k :=
  fun h => hx (mem_lerase_of_mem h)

theorem not_mem_lerase_self {l : List String} (hnd : l.Nodup) (k : String) :
    k ∉ lerase l k := by
  induction l with
  | nil => simp [lerase]
  | cons x xs ih =>
    rw [lerase]
    by_cases hx : x = k
    · rw [if_pos hx]
      subst hx
      exact (List.nodup_cons.1 hnd).1
    · rw [if_neg hx]
      intro hmem
      rcases List.mem_cons.1 hmem with h | h
      · exact hx h.symm
      · exact ih (List.nodup_cons.1 hnd).2 h

/-- A successful selection never changes the key pool. -/
theorem gna_keys : ∀ (fuel : ℕ) (s : Scraper) (today : ℕ) (t w : ℚ)
    (k : String) (s' : Scraper),
    get_next_api_key fuel s today t = Except.ok (w, k, s') →
    s'.api_keys = s.api_keys := by
  intro fuel
  induction fuel with
  | zero =>
    intro s today t w k s' h
    simp [get_next_api_key] at h
  | succ fuel ih =>
    intro s today t w k s' h
    rw [get_next_api_key] at h
    by_cases hkeys : s.api_keys = []
    · rw [if_pos hkeys] at h; cases h
    · rw [if_neg hkeys] at h
      by_cases havail : availableKeys (reset_daily_quota_usage s today) t = []
      · rw [if_pos havail] at h
        cases hrec : get_next_api_key fuel (reset_daily_quota_usage s today) today
            (t + max 0 (minLastUsed (reset_daily_quota_usage s today)
              + (reset_daily_quota_usage s today).min_api_cooldown - t)) with
        | error e => rw [hrec] at h; cases h
        | ok res =>
          obtain ⟨w', k', s''⟩ := res
          rw [hrec] at h
          injection h with h
          injection h with hw h
          injection h with hk hs
          subst hw hk hs
          rw [ih _ _ _ _ _ _ hrec, reset_api_keys]
      · rw [if_neg havail] at h
        obtain ⟨r, hsel, _⟩ := selGo_none_spec (reset_daily_quota_usage s today) _ havail
        rw [hsel] at h
        injection h with h
        injection h with hw h
        injection h with hk hs
        subst hw hk hs
        rw [markUsed_api_keys, reset_api_keys]

theorem cysGo_no_attempt (x : String) : ∀ (fuel : ℕ) (ph : CPhase) (selFuel : ℕ)
    (s : Scraper) (today : ℕ) (t : ℚ) (outs : List BOut) (jits : List ℚ),
    x ∉ s.api_keys →
    (∀ k₀ rc, ph = CPhase.loop k₀ rc → x ≠ k₀) →
    Ev.attempt x ∉ (cysGo fuel ph selFuel s today t outs jits).1 := by
  intro fuel
  induction fuel with
  | zero =>
    intro ph selFuel s today t outs jits hx hph
    simp [cysGo]
  | succ fuel ih =>
    intro ph selFuel s today t outs jits hx hph
    cases ph with
    | select =>
      rw [cysGo]
      cases hg : get_next_api_key selFuel s today t with
      | error e => cases e <;> simp
      | ok res =>
        obtain ⟨w, k, s₁⟩ := res
        have hk := (gna_ok_props selFuel s today t w k s₁ hg).2.2
        have hx₁ : x ∉ s₁.api_keys := by
          rw [gna_keys selFuel s today t w k s₁ hg]; exact hx
        exact ih (CPhase.loop k 0) selFuel s₁ today (t + w) outs jits hx₁
          (fun k₀ rc hpe => by
            injection hpe with h1 h2
            subst h1
            intro hxe; exact hx (hxe ▸ hk))
    | loop k₀ rc =>
      have hxk : x ≠ k₀ := hph k₀ rc rfl
      have hsel : ∀ (a : String) (b : ℕ), CPhase.select = CPhase.loop a b → x ≠ a := by
        intro a b h; simp at h
      have hnext : ∀ (a : String) (b : ℕ),
          CPhase.loop k₀ (rc + 1) = CPhase.loop a b → x ≠ a := by
        intro a b h
        injection h with h1 h2
        subst h1
        exact hxk
      have hxE : x ∉ (bumpError s k₀).api_keys := by
        rw [bumpError_api_keys]; exact hx
      have hxR : x ∉ (removeKey (bumpError s k₀) k₀).api_keys := by
        rw [removeKey_api_keys, bumpError_api_keys]; exact not_mem_lerase hx
      by_cases hrc : rc < 3
      · cases outs with
        | nil => simp [cysGo, hrc, hxk]
        | cons o rest =>
          cases o with
          | success => simp [cysGo, hrc, hxk]
          | httpError code quota acnc =>
            cases quota with
            | true =>
              by_cases hemp : (removeKey (bumpError s k₀) k₀).api_keys = []
              · simp [cysGo, hrc, hxk, hemp]
              · simp [cysGo, hrc, hxk, hemp]
                exact ih CPhase.select selFuel (removeKey (bumpError s k₀) k₀)
                  today t rest jits hxR hsel
            | false =>
              by_cases h403 : code = 403
              · cases acnc with
                | true =>
                  by_cases hemp : (removeKey (bumpError s k₀) k₀).api_keys = []
                  · simp [cysGo, hrc, hxk, h403, hemp]
                  · simp [cysGo, hrc, hxk, h403, hemp]
                    exact ih CPhase.select selFuel (removeKey (bumpError s k₀) k₀)
                      today t rest jits hxR hsel
                | false =>
                  cases jits with
                  | nil => simp [cysGo, hrc, hxk, h403]
                  | cons j jrest =>
                    simp [cysGo, hrc, hxk, h403]
                    exact ih (CPhase.loop k₀ (rc + 1)) selFuel (bumpError s k₀)
                      today (t + (2 ^ (rc + 1) + j)) rest jrest hxE hnext
              · by_cases h429 : code = 429
                · cases jits with
                  | nil => simp [cysGo, hrc, hxk, h403, h429]
                  | cons j jrest =>
                    by_cases hrot : 2 ≤ rc + 1
                    · simp [cysGo, hrc, hxk, h403, h429, hrot]
                      exact ih CPhase.select selFuel (bumpError s k₀)
                        today (t + (2 ^ (rc + 1) + j)) rest jrest hxE hsel
                    · simp [cysGo, hrc, hxk, h403, h429, hrot]
                      exact ih (CPhase.loop k₀ (rc + 1)) selFuel (bumpError s k₀)
                        today (t + (2 ^ (rc + 1) + j)) rest jrest hxE hnext
                · by_cases h500 : 500 ≤ code
                  · cases jits with
                    | nil => simp [cysGo, hrc, hxk, h403, h429, h500]
                    | cons j jrest =>
                      simp [cysGo, hrc, hxk, h403, h429, h500]
                      exact ih (CPhase.loop k₀ (rc + 1)) selFuel (bumpError s k₀)
                        today (t + (2 ^ (rc + 1) + j)) rest jrest hxE hnext
                  · by_cases h400 : code = 400
                    · by_cases hemp : (removeKey (bumpError s k₀) k₀).api_keys = []
                      · simp [cysGo, hrc, hxk, h403, h429, h500, h400, hemp]
                      · simp [cysGo, hrc, hxk, h403, h429, h500, h400, hemp]
                        exact ih CPhase.select selFuel (removeKey (bumpError s k₀) k₀)
                          today t rest jits hxR hsel
                    · by_cases hcap : 3 ≤ rc + 1
                      · simp [cysGo, hrc, hxk, h403, h429, h500, h400, hcap]
                      · cases jits with
                        | nil => simp [cysGo, hrc, hxk, h403, h429, h500, h400, hcap]
                        | cons j jrest =>
                          simp [cysGo, hrc, hxk, h403, h429, h500, h400, hcap]
                          exact ih (CPhase.loop k₀ (rc + 1)) selFuel (bumpError s k₀)
                            today (t + (2 ^ (rc + 1) + j)) rest jrest hxE hnext
      · simp [cysGo, hrc]

/-- C3: after any successful credential selection, a rate-limited outcome
(HTTP 429) causes a backoff sleep of `1 * 2 ^ 1 + jitter` followed by a
retry with the very same credential — the next `build` attempt carries the
same key, and a following success returns that key; a bad-request outcome
(HTTP 400, the invalid-credential case) removes the credential immediately —
the trace is exactly attempt then removal — the key is no longer in the
pool, and no later attempt in the whole remaining trace ever uses it. -/
theorem retry_classification :
    (∀ (fuel selFuel : ℕ) (s : Scraper) (today : ℕ) (t w : ℚ) (k : String)
      (s₁ : Scraper) (j : ℚ) (outs : List BOut) (jits : List ℚ),
      get_next_api_key selFuel s today t = Except.ok (w, k, s₁) →
      ∃ (s₂ : Scraper) (t₂ : ℚ),
        cysGo (fuel + 1 + 1 + 1) CPhase.select selFuel s today t
            (BOut.httpError 429 false false :: BOut.success :: outs) (j :: jits)
          = ([Ev.attempt k, Ev.slept (1 * 2 ^ 1 + j), Ev.attempt k],
             Except.ok (k, s₂, t₂, outs, jits)))
    ∧ (∀ (fuel selFuel : ℕ) (s : Scraper) (today : ℕ) (t w : ℚ) (k : String)
      (s₁ : Scraper) (outs : List BOut) (jits : List ℚ),
      get_next_api_key selFuel s today t = Except.ok (w, k, s₁) →
      s.api_keys.Nodup →
      ∃ (evs : List Ev) (res : Except CErr (String × Scraper × ℚ × List BOut × List ℚ)),
        cysGo (fuel + 1 + 1) CPhase.select selFuel s today t
            (BOut.httpError 400 false false :: outs) jits
          = (Ev.attempt k :: Ev.removed k :: evs, res)
        ∧ Ev.attempt k ∉ evs
        ∧ k ∉ (removeKey (bumpError s₁ k) k).api_keys) := by
  constructor
  · intro fuel selFuel s today t w k s₁ j outs jits hg
    refine ⟨bumpError s₁ k, t + w + (2 ^ 1 + j), ?_⟩
    simp [cysGo, hg]
  · intro fuel selFuel s today t w k s₁ outs jits hg hnd
    have hkeys₁ : s₁.api_keys = s.api_keys := gna_keys selFuel s today t w k s₁ hg
    have hnmem : k ∉ (removeKey (bumpError s₁ k) k).api_keys := by
      rw [removeKey_api_keys, bumpError_api_keys, hkeys₁]
      exact not_mem_lerase_self hnd k
    by_cases hemp : (removeKey (bumpError s₁ k) k).api_keys = []
    · refine ⟨[], Except.error CErr.allInvalid, ?_, ?_, hnmem⟩
      · simp [cysGo, hg, hemp]
      · simp
    · refine ⟨(cysGo fuel CPhase.select selFuel (removeKey (bumpError s₁ k) k)
          today (t + w) outs jits).1,
        (cysGo fuel CPhase.select selFuel (removeKey (bumpError s₁ k) k)
          today (t + w) outs jits).2, ?_, ?_, hnmem⟩
      · simp [cysGo, hg, hemp]
      · exact cysGo_no_attempt k fuel CPhase.select selFuel
          (removeKey (bumpError s₁ k) k) today (t + w) outs jits hnmem
          (fun a b h => by simp at h)

/-- C5: with an empty credential pool the client fails at once with the
exhaustion error and an empty trace — no attempt is made and nothing is
retried silently; and when the last remaining credential is removed because
its call was classified quota-exceeded (resp. invalid), the matching fatal
`ValueError` propagates immediately after the removal event. -/
theorem credential_exhaustion :
    (∀ (fuel selFuel : ℕ) (s : Scraper) (today : ℕ) (t : ℚ)
      (outs : List BOut) (jits : List ℚ), s.api_keys = [] →
      cysGo (fuel + 1) CPhase.select (selFuel + 1) s today t outs jits
        = ([], Except.error CErr.noKeys))
    ∧ (∀ (fuel selFuel : ℕ) (s : Scraper) (today : ℕ) (t w : ℚ) (k : String)
      (s₁ : Scraper) (c : ℕ) (a : Bool) (outs : List BOut) (jits : List ℚ),
      get_next_api_key selFuel s today t = Except.ok (w, k, s₁) →
      s.api_keys = [k] →
      cysGo (fuel + 1 + 1) CPhase.select selFuel s today t
          (BOut.httpError c true a :: outs) jits
        = ([Ev.attempt k, Ev.removed k], Except.error CErr.allQuota))
    ∧ (∀ (fuel selFuel : ℕ) (s : Scraper) (today : ℕ) (t w : ℚ) (k : String)
      (s₁ : Scraper) (outs : List BOut) (jits : List ℚ),
      get_next_api_key selFuel s today t = Except.ok (w, k, s₁) →
      s.api_keys = [k] →
      cysGo (fuel + 1 + 1) CPhase.select selFuel s today t
          (BOut.httpError 400 false false :: outs) jits
        = ([Ev.attempt k, Ev.removed k], Except.error CErr.allInvalid)) := by
  refine ⟨?_, ?_, ?_⟩
  · intro fuel selFuel s today t outs jits hempty
    have hg : get_next_api_key (selFuel + 1) s today t = Except.error GErr.noKeys := by
      rw [get_next_api_key, if_pos hempty]
    simp [cysGo, hg]
  · intro fuel selFuel s today t w k s₁ c a outs jits hg hone
    have hkeys₁ : s₁.api_keys = [k] := by
      rw [gna_keys selFuel s today t w k s₁ hg, hone]
    have hemp : (removeKey (bumpError s₁ k) k).api_keys = [] := by
      rw [removeKey_api_keys, bumpError_api_keys, hkeys₁]
      simp [lerase]
    simp [cysGo, hg, hemp]
  · intro fuel selFuel s today t w k s₁ outs jits hg hone
    have hkeys₁ : s₁.api_keys = [k] := by
      rw [gna_keys selFuel s today t w k s₁ hg, hone]
    have hemp : (removeKey (bumpError s₁ k) k).api_keys = [] := by
      rw [removeKey_api_keys, bumpError_api_keys, hkeys₁]
      simp [lerase]
    simp [cysGo, hg, hemp]

/-- C4 counterexample: `validate_api_key` retries `server_error` outcomes
with a fixed 2.0-second sleep and no retry cap: four consecutive 500s are
followed by a fifth probe that still runs and succeeds — the 4 retries
exceed the claimed cap of 3 with no fatal error — and the recorded second
delay, 2.0, cannot be written as `1 * 2 ^ 2 + jitter` for any jitter in
[0, 1), so the claimed backoff formula does not hold there either. -/
theorem fixed_sleep_unbounded_retry :
    validate_api_key 6 false
        [VOut.httpError 500 false, VOut.httpError 500 false,
          VOut.httpError 500 false, VOut.httpError 500 false, VOut.success]
      = some (5, [2, 2, 2, 2], VRes.valid, [])
    ∧ ¬ ((5 : ℕ) - 1 ≤ 3)
    ∧ ∀ j : ℚ, 0 ≤ j → j < 1 → (2 : ℚ) ≠ 1 * 2 ^ 2 + j := by
  refine ⟨rfl, by norm_num, ?_⟩
  intro j h0 h1 heq
  have h4 : (1 : ℚ) * 2 ^ 2 + j = 4 + j := by norm_num
  rw [h4] at heq
  linarith

/-- C4 (amended): in `create_youtube_service` every retry delay equals
`base * 2 ^ attempt + jitter` with base 1 and attempts counted 1, 2, 3, and
after the third retry the loop stops with the fatal retries-exceeded error;
`validate_api_key`, by contrast, sleeps exactly 2.0 seconds before every
one of its (uncapped) retries. -/
theorem backoff_formula_and_cap :
    (∀ (fuel selFuel : ℕ) (s : Scraper) (today : ℕ) (t w : ℚ) (k : String)
      (s₁ : Scraper) (j1 j2 j3 : ℚ) (outs : List BOut) (jits : List ℚ),
      get_next_api_key selFuel s today t = Except.ok (w, k, s₁) →
      cysGo (fuel + 1 + 1 + 1 + 1 + 1) CPhase.select selFuel s today t
          (BOut.httpError 500 false false :: BOut.httpError 500 false false ::
            BOut.httpError 500 false false :: outs) (j1 :: j2 :: j3 :: jits)
        = ([Ev.attempt k, Ev.slept (1 * 2 ^ 1 + j1), Ev.attempt k,
            Ev.slept (1 * 2 ^ 2 + j2), Ev.attempt k, Ev.slept (1 * 2 ^ 3 + j3)],
            Except.error CErr.retriesExceeded))
    ∧ (∀ (fuel : ℕ) (c : Bool) (outs left : List VOut) (n : ℕ) (sl : List ℚ)
      (r : VRes), validate_api_key fuel c outs = some (n, sl, r, left) →
      ∀ d ∈ sl, d = 2) := by
  constructor
  · intro fuel selFuel s today t w k s₁ j1 j2 j3 outs jits hg
    simp [cysGo, hg]
  · intro fuel
    induction fuel with
    | zero =>
      intro c outs left n sl r h
      simp [validate_api_key] at h
    | succ fuel ih =>
      intro c outs left n sl r h
      cases c with
      | true =>
        simp [validate_api_key] at h
        obtain ⟨hn, hsl, hr, hl⟩ := h
        intro d hd
        rw [hsl] at hd
        simp at hd
      | false =>
        cases outs with
        | nil => simp [validate_api_key] at h
        | cons o rest =>
          cases o with
          | success =>
            simp [validate_api_key] at h
            obtain ⟨hn, hsl, hr, hl⟩ := h
            intro d hd
            rw [hsl] at hd
            simp at hd
          | exception =>
            simp [validate_api_key] at h
            obtain ⟨hn, hsl, hr, hl⟩ := h
            intro d hd
            rw [hsl] at hd
            simp at hd
          | httpError code quota =>
            cases quota with
            | true =>
              simp [validate_api_key] at h
              obtain ⟨hn, hsl, hr, hl⟩ := h
              intro d hd
              rw [hsl] at hd
              simp at hd
            | false =>
              by_cases h4 : code = 400 ∨ code = 403
              · simp [validate_api_key, h4] at h
                obtain ⟨hn, hsl, hr, hl⟩ := h
                intro d hd
                rw [hsl] at hd
                simp at hd
              · by_cases h429 : code = 429
                · cases hrec : validate_api_key fuel false rest with
                  | none => simp [validate_api_key, h4, h429, hrec] at h
                  | some v =>
                    obtain ⟨n2, sl2, r2, left2⟩ := v
                    simp [validate_api_key, h4, h429, hrec] at h
                    obtain ⟨hn, hsl, hr, hl⟩ := h
                    intro d hd
                    rw [← hsl] at hd
                    rcases List.mem_cons.1 hd with hd2 | hd2
                    · exact hd2
                    · exact ih false rest left2 n2 sl2 r2 hrec d hd2
                · by_cases h500 : 500 ≤ code
                  · cases hrec : validate_api_key fuel false rest with
                    | none => simp [validate_api_key, h4, h429, h500, hrec] at h
                    | some v =>
                      obtain ⟨n2, sl2, r2, left2⟩ := v
                      simp [validate_api_key, h4, h429, h500, hrec] at h
                      obtain ⟨hn, hsl, hr, hl⟩ := h
                      intro d hd
                      rw [← hsl] at hd
                      rcases List.mem_cons.1 hd with hd2 | hd2
                      · exact hd2
                      · exact ih false rest left2 n2 sl2 r2 hrec d hd2
                  · simp [validate_api_key, h4, h429, h500] at h
                    obtain ⟨hn, hsl, hr, hl⟩ := h
                    intro d hd
                    rw [hsl] at hd
                    simp at hd

/-- Concrete one-key pool: never used, zero cooldown, ledger day current. -/
def wS : Scraper :=
  { api_keys := ["a"], api_usage_count := [], api_last_used := [],
    api_errors := [], daily_quota_usage := [], min_api_cooldown := 0,
    daily_quota_limit := 10000, last_quota_reset_day := 0 }

theorem wS_avail : availableKeys (reset_daily_quota_usage wS 0) 5 = ["a"] := by
  have hres : reset_daily_quota_usage wS 0 = wS := rfl
  rw [hres]
  show List.filter (fun k =>
      decide (wS.min_api_cooldown ≤ 5 - aget 0 wS.api_last_used k)) ["a"] = ["a"]
  rw [List.filter_cons_of_pos]
  · rw [List.filter_nil]
  · apply decide_eq_true
    show (0 : ℚ) ≤ 5 - 0
    norm_num

theorem wS_gna : get_next_api_key 1 wS 0 5
    = Except.ok (0, "a", markUsed (reset_daily_quota_usage wS 0) "a" 5) := by
  show get_next_api_key (0 + 1) wS 0 5 = _
  rw [get_next_api_key]
  rw [if_neg (by decide : ¬(wS.api_keys = []))]
  rw [wS_avail]
  rw [if_neg (by decide : ¬((["a"] : List String) = []))]
  rfl

/-- Closed witness for `retry_classification` at the one-key pool `wS`:
a 429 outcome makes the client sleep and attempt `"a"` again, and a 400
outcome removes `"a"` with no later attempt. -/
theorem retry_classification_witness :
    (∃ (s₂ : Scraper) (t₂ : ℚ),
      cysGo 3 CPhase.select 1 wS 0 5
          (BOut.httpError 429 false false :: BOut.success :: []) (0 :: [])
        = ([Ev.attempt "a", Ev.slept (1 * 2 ^ 1 + 0), Ev.attempt "a"],
            Except.ok ("a", s₂, t₂, [], [])))
    ∧ (∃ (evs : List Ev) (res : Except CErr (String × Scraper × ℚ × List BOut × List ℚ)),
      cysGo 2 CPhase.select 1 wS 0 5 (BOut.httpError 400 false false :: []) []
        = (Ev.attempt "a" :: Ev.removed "a" :: evs, res)
      ∧ Ev.attempt "a" ∉ evs
      ∧ "a" ∉ (removeKey (bumpError (markUsed (reset_daily_quota_usage wS 0) "a" 5) "a") "a").api_keys) :=
  ⟨retry_classification.1 0 1 wS 0 5 0 "a"
      (markUsed (reset_daily_quota_usage wS 0) "a" 5) 0 [] [] wS_gna,
    retry_classification.2 0 1 wS 0 5 0 "a"
      (markUsed (reset_daily_quota_usage wS 0) "a" 5) [] [] wS_gna (by decide)⟩

/-- Closed witness for `backoff_formula_and_cap`: on the one-key pool three
500s produce the three exponential delays then the fatal cap error, and a
concrete `validate_api_key` run confirms every recorded sleep is 2.0. -/
theorem backoff_formula_and_cap_witness :
    (cysGo 5 CPhase.select 1 wS 0 5
        (BOut.httpError 500 false false :: BOut.httpError 500 false false ::
          BOut.httpError 500 false false :: []) (0 :: 0 :: 0 :: [])
      = ([Ev.attempt "a", Ev.slept (1 * 2 ^ 1 + 0), Ev.attempt "a",
          Ev.slept (1 * 2 ^ 2 + 0), Ev.attempt "a", Ev.slept (1 * 2 ^ 3 + 0)],
          Except.error CErr.retriesExceeded))
    ∧ (∀ d ∈ ([2] : List ℚ), d = 2) :=
  ⟨backoff_formula_and_cap.1 0 1 wS 0 5 0 "a"
      (markUsed (reset_daily_quota_usage wS 0) "a" 5) 0 0 0 [] [] wS_gna,
    backoff_formula_and_cap.2 3 false [VOut.httpError 429 false, VOut.success]
      [] 2 [2] VRes.valid rfl⟩

/-- Closed witness for `credential_exhaustion`: an empty pool fails at once
with `noKeys` and an empty trace; on the one-key pool a quota outcome gives
the all-quota fatal error and a 400 outcome the all-invalid one, each right
after the removal. -/
theorem credential_exhaustion_witness :
    (cysGo 1 CPhase.select 1
        { api_keys := [], api_usage_count := [], api_last_used := [],
          api_errors := [], daily_quota_usage := [], min_api_cooldown := 0,
          daily_quota_limit := 10000, last_quota_reset_day := 0 } 0 5 [] []
      = ([], Except.error CErr.noKeys))
    ∧ (cysGo 2 CPhase.select 1 wS 0 5 (BOut.httpError 403 true true :: []) []
      = ([Ev.attempt "a", Ev.removed "a"], Except.error CErr.allQuota))
    ∧ (cysGo 2 CPhase.select 1 wS 0 5 (BOut.httpError 400 false false :: []) []
      = ([Ev.attempt "a", Ev.removed "a"], Except.error CErr.allInvalid)) :=
  ⟨credential_exhaustion.1 0 0 _ 0 5 [] [] rfl,
    credential_exhaustion.2.1 0 1 wS 0 5 0 "a"
      (markUsed (reset_daily_quota_usage wS 0) "a" 5) 403 true [] [] wS_gna rfl,
    credential_exhaustion.2.2 0 1 wS 0 5 0 "a"
      (markUsed (reset_daily_quota_usage wS 0) "a" 5) [] [] wS_gna rfl⟩
